import Mathlib

/-!
Verification development for the HNBigTrie hostname-trie code of this
repository (src/js/hnbigtrie.js and src/js/wasm/hnbigtrie.wat, the latter
containing the wasm text module plus the later `HNBigTrieContainer`
variants of the same JavaScript code).

The byte buffer of the trie manager is modelled as a value of the
inductive type `Buf` (its construction history), read through `Buf.rd`;
a fresh `Uint8Array` is zero-filled, which the model mirrors by reading 0
from untouched indices, and every concrete execution appearing in the
theorems below only ever reads indices that are inside the buffer, so
the model agrees with JavaScript typed-array semantics on all reads
these theorems perform.
32-bit little-endian words (`buf32` in the source) are read and written
through four byte accesses.  Loops of the source are modelled with an
explicit fuel argument; `none` means the fuel ran out.  Strings are
modelled as lists of character codes.
-/

namespace HNBigTrie

/-- A `Uint8Array` byte store, represented by its construction history so
that buffer states have decidable equality: `zeros` is a fresh
zero-filled array, `write b i v` is `b` after `buf[i] = v` (the typed
array stores `v % 256`), and `moved b trie1 char0 char1 c0` is the fresh
array built by `resizeBuf`: bytes `[0, trie1)` of `b` copied to offset 0
and bytes `[char0, char1)` of `b` copied to offset `c0`, everything else
zero. -/
inductive Buf where
  | zeros : Buf
  | write : Buf → Nat → Nat → Buf
  | moved : Buf → Nat → Nat → Nat → Nat → Buf
  deriving DecidableEq, Repr

/-- Reading byte `j` of a byte store. -/
def Buf.rd : Buf → Nat → Nat
  | .zeros, _ => 0
  | .write b i v, j => if j = i then v % 256 else b.rd j
  | .moved b trie1 char0 char1 c0, j =>
    if c0 ≤ j ∧ j < c0 + (char1 - char0) then b.rd (char0 + (j - c0))
    else if j < trie1 then b.rd j
    else 0

/-- `buf[i] = v` on a byte store. -/
def wr8 (b : Buf) (i v : Nat) : Buf :=
  Buf.write b i v

/-- Little-endian 32-bit read `buf32[i]`, i.e. four byte reads at byte
offset `4*i`. -/
def rd32 (f : Buf) (i : Nat) : Nat :=
  f.rd (4 * i) + 256 * f.rd (4 * i + 1) + 65536 * f.rd (4 * i + 2) +
    16777216 * f.rd (4 * i + 3)

/-- Little-endian 32-bit write `buf32[i] = v`, i.e. four byte writes at
byte offset `4*i` of the bytes of `v % 2^32`. -/
def wr32 (f : Buf) (i v : Nat) : Buf :=
  wr8 (wr8 (wr8 (wr8 f (4 * i) v) (4 * i + 1) (v / 256))
    (4 * i + 2) (v / 65536)) (4 * i + 3) (v / 16777216)

/-- State of the `hnBigTrieManager` object of src/js/hnbigtrie.js.
`buf` is the byte buffer (`bufLen` its `length`), `trie0`, `trie1`,
`char0`, `char1` the four region fields, `id` the generation counter,
`needle` the JavaScript string cached in `this.needle` (as character
codes), and `segments` the construction-time dedup `Map` as an
association list from segment strings to pool offsets, most recent
binding first. -/
structure Mgr where
  buf : Buf
  bufLen : Nat
  trie0 : Nat
  trie1 : Nat
  char0 : Nat
  char1 : Nat
  id : Nat
  needle : List Nat
  segments : List (List Nat × Nat)
  deriving DecidableEq

/-- The initial `hnBigTrieManager` literal: a zero-filled 131072-byte
buffer, `trie0 = trie1 = 256`, `char0 = char1 = 65536`, `id = 0`. -/
def mgrInit : Mgr where
  buf := Buf.zeros
  bufLen := 131072
  trie0 := 256
  trie1 := 256
  char0 := 65536
  char1 := 65536
  id := 0
  needle := []
  segments := []

/-- The write loop of `setNeedle`: `while ( i-- ) { buf[i] = needle.charCodeAt(i); }`
writing bytes `i-1`, …, `0`. -/
def setNeedleLoop (needle : List Nat) (f : Buf) : Nat → Buf
  | 0 => f
  | i + 1 => setNeedleLoop needle (wr8 f i (needle.getD i 0)) i

/-- `setNeedle` of src/js/hnbigtrie.js: if the argument differs from the
cached `this.needle`, clamp its length to 255, store that length at byte
255, copy the (clamped) character codes into bytes `0 …`, and cache the
argument. -/
def setNeedle (s : Mgr) (needle : List Nat) : Mgr :=
  if needle = s.needle then s
  else
    let i := min needle.length 255
    let f := wr8 s.buf 255 i
    { s with buf := setNeedleLoop needle f i, needle := needle }

/-- `labelBoundary` of src/js/hnbigtrie.js:
`i === 0 || this.buf[i-1] === 0x2E`. -/
def Mgr.labelBoundary (s : Mgr) (i : Nat) : Bool :=
  i = 0 || s.buf.rd (i - 1) = 46

/-- The scan loop of `indexOfMismatch`, comparing segment bytes
`buf[i0+i]` against needle bytes `buf[ineedle-1-i]`; returns the first
mismatch position `i` (or `n` if all `n` positions match). -/
def mismatchLoop (s : Mgr) (i0 ineedle : Nat) : Nat → Nat → Nat
  | i, 0 => i
  | i, left + 1 =>
    if s.buf.rd (i0 + i) = s.buf.rd (ineedle - 1 - i) then
      mismatchLoop s i0 ineedle (i + 1) left
    else i

/-- `indexOfMismatch(vcell, ineedle)` of src/js/hnbigtrie.js: compare at
most `min(vcell >>> 24, ineedle)` characters of the segment (stored
reversed, starting at `char0 + (vcell & 0xFFFFFF)`) against the needle
read right to left from `ineedle - 1`, returning the count of matching
leading characters. -/
def indexOfMismatch (s : Mgr) (vcell ineedle : Nat) : Nat :=
  let n := min (vcell / 16777216) ineedle
  mismatchLoop s (s.char0 + vcell % 16777216) ineedle 0 n

/-- The `while ( icell !== 0 )` loop of `matchesJS` in
src/js/hnbigtrie.js, with the loop-exit line
`return this.labelBoundary(ineedle) ? ineedle : -1;` folded into the
`icell = 0` case.  Mirrors the source statement for statement, including
the `return 1;` taken when the cell after a fully matched segment is a
boundary cell at a label boundary, and the unguarded reads
`this.buf32[icell+2]`, `this.buf32[icell+1]` performed after
`icell = this.buf32[icell+1]` even when that value is 0. -/
def matchesLoop (s : Mgr) : Nat → Nat → Nat → Option Int
  | _, _, 0 => none
  | icell, ineedle, fuel + 1 =>
    if icell = 0 then
      some (if s.labelBoundary ineedle then (ineedle : Int) else -1)
    else
      let vcell3 := rd32 s.buf (icell + 2)
      let imismatch := indexOfMismatch s vcell3 ineedle
      if imismatch = 0 then
        matchesLoop s (rd32 s.buf icell) ineedle fuel
      else if imismatch < vcell3 / 16777216 then some (-1)
      else
        let ineedle2 := ineedle - imismatch
        let icell2 := rd32 s.buf (icell + 1)
        if rd32 s.buf (icell2 + 2) = 0 then
          if s.labelBoundary ineedle2 then some 1
          else matchesLoop s (rd32 s.buf (icell2 + 1)) ineedle2 fuel
        else matchesLoop s icell2 ineedle2 fuel

/-- `matchesJS(iroot)` of src/js/hnbigtrie.js: read the needle length at
byte 255, return −1 immediately when it is 0, otherwise run the
traversal loop. -/
def matchesJS (s : Mgr) (iroot fuel : Nat) : Option Int :=
  let ineedle := s.buf.rd 255
  if ineedle = 0 then some (-1) else matchesLoop s iroot ineedle fuel

/-- `newCell(idown, iright, v)` of src/js/hnbigtrie.js: append a 12-byte
cell at `trie1`, write the three words, return the new cell word index
`trie1 >>> 2` together with the updated state. -/
def newCell (s : Mgr) (idown iright v : Nat) : Mgr × Nat :=
  let icell := s.trie1 / 4
  let buf2 :=
    wr32 (wr32 (wr32 s.buf icell idown) (icell + 1) iright) (icell + 2) v
  ({ s with buf := buf2, trie1 := s.trie1 + 12 }, icell)

/-- `create()` of src/js/hnbigtrie.js: allocate a zeroed root cell at
`trie1` and return its word index (the `iroot` stored in the returned
`HNBigTrieRef`). -/
def create (s : Mgr) : Mgr × Nat :=
  let iroot := s.trie1 / 4
  let buf2 :=
    wr32 (wr32 (wr32 s.buf iroot 0) (iroot + 1) 0) (iroot + 2) 0
  ({ s with buf := buf2, trie1 := s.trie1 + 12 }, iroot)

/-- Lookup in the construction-time segment-dedup map
(`this.segments.get(segment)`). -/
def segLookup : List (List Nat × Nat) → List Nat → Option Nat
  | [], _ => none
  | (k, v) :: rest, key => if k = key then some v else segLookup rest key

/-- The copy loop of `storeSegment`:
`while ( i-- ) { this.buf[this.char1++] = this.buf[i]; }`, writing the
first `len` needle bytes into the pool in reverse order and returning the
updated byte store and `char1`. -/
def storeSegLoop (f : Buf) (char1 : Nat) : Nat → Buf × Nat
  | 0 => (f, char1)
  | i + 1 => storeSegLoop (wr8 f char1 (f.rd i)) (char1 + 1) i

/-- `storeSegment(len)` of src/js/hnbigtrie.js: return 0 for length 0;
otherwise look the segment string up in the dedup map, append the
reversed needle bytes at `char1` only on a miss, and return the packed
descriptor `(len << 24) | ichar`.  The pool offset `ichar` is below
2^24 in every state built in this file, so the bitwise or is written as
`16777216 * len + ichar`. -/
def storeSegment (s : Mgr) (len : Nat) : Mgr × Nat :=
  if len = 0 then (s, 0)
  else
    let segment := s.needle.take len
    match segLookup s.segments segment with
    | some ichar => (s, 16777216 * len + ichar)
    | none =>
      let ichar := s.char1 - s.char0
      let p := storeSegLoop s.buf s.char1 len
      ({ s with
          buf := p.1, char1 := p.2,
          segments := (segment, ichar) :: s.segments },
        16777216 * len + ichar)

/-- `resizeBuf(char0, char1, buf1)` of src/js/hnbigtrie.js: no-op when
`buf1` equals the current buffer length; otherwise allocate a fresh
zero-filled buffer of length `buf1`, copy bytes `[0, trie1)` to offset 0
and the pool bytes `[char0, char1)` to the new `char0`, and store the new
region fields.  (In every call in this file the two copied regions do not
overlap and fit the new buffer.) -/
def resizeBuf (s : Mgr) (char0 char1 buf1 : Nat) : Mgr :=
  if buf1 = s.bufLen then s
  else
    { s with
        buf := Buf.moved s.buf s.trie1 s.char0 s.char1 char0
        bufLen := buf1
        char0 := char0
        char1 := char1 }

/-- `growBuf` of src/js/hnbigtrie.js: round `trie1 + 24` up to a 64 KiB
boundary for the new `char0`, keep the pool size, round the end of the
pool plus 256 up to a 64 KiB boundary for the new buffer length, and
resize. -/
def growBuf (s : Mgr) : Mgr :=
  let char0 := (s.trie1 + 24 + 65535) / 65536 * 65536
  let char1 := char0 + (s.char1 - s.char0)
  let buf1 := (char1 + 256 + 65535) / 65536 * 65536
  resizeBuf s char0 char1 buf1

/-- `shrinkBuf` of src/js/hnbigtrie.js: same as `growBuf` but with 4-byte
alignment and no 24-byte or 256-byte reserve. -/
def shrinkBuf (s : Mgr) : Mgr :=
  let char0 := (s.trie1 + 3) / 4 * 4
  let char1 := char0 + (s.char1 - s.char0)
  let buf1 := (char1 + 3) / 4 * 4
  resizeBuf s char0 char1 buf1

/-- `optimize()` of src/js/hnbigtrie.js: drop the dedup map and shrink
the buffer. -/
def optimize (s : Mgr) : Mgr :=
  shrinkBuf { s with segments := [] }

/-- `reset()` of src/js/hnbigtrie.js.  When no wasm memory is installed
and the buffer has grown beyond 131072 bytes the source executes
`this.buf.byteLength = new Uint8Array(131072);` — an assignment to the
read-only `byteLength` property, which throws a `TypeError` in this
strict-mode file before any field is updated; that outcome is modelled
as `none`.  Otherwise the buffer is zero-filled, the region fields are
restored to their initial values, the dedup map and cached needle are
cleared, and the generation id is incremented. -/
def reset (s : Mgr) : Option Mgr :=
  if 131072 < s.bufLen then none
  else some
    { buf := Buf.zeros, bufLen := s.bufLen, trie0 := 256, trie1 := 256,
      char0 := 65536, char1 := 65536, id := s.id + 1, needle := [],
      segments := [] }

/-- The `for (;;)` loop of `add` in src/js/hnbigtrie.js, fuel-bounded.
Returns the `0`/`1` result and the updated state. -/
def addLoop (s : Mgr) : Nat → Nat → Nat → Option (Nat × Mgr)
  | _, _, 0 => none
  | icell, ihnchar, fuel + 1 =>
    let v := rd32 s.buf (icell + 2)
    -- skip boundary cells
    if v = 0 then addLoop s (rd32 s.buf (icell + 1)) ihnchar fuel
    else
      let imismatch := indexOfMismatch s v ihnchar
      if imismatch = 0 then
        -- first character does not match: move to descendant
        let inext := rd32 s.buf icell
        if inext ≠ 0 then addLoop s inext ihnchar fuel
        else
          let p1 := storeSegment s ihnchar
          let p2 := newCell p1.1 0 0 p1.2
          some (1, { p2.1 with buf := wr32 p2.1.buf icell p2.2 })
      else
        let ihnchar2 := ihnchar - imismatch
        let lsegchar := v / 16777216
        let inext := rd32 s.buf (icell + 1)
        if imismatch = lsegchar then
          if ihnchar2 ≠ 0 then
            if inext ≠ 0 then addLoop s inext ihnchar2 fuel
            else
              -- boundary cell + needle remainder
              let p1 := newCell s 0 0 0
              let s2 := { p1.1 with buf := wr32 p1.1.buf (icell + 1) p1.2 }
              let t := rd32 s2.buf (icell + 1)
              let p2 := storeSegment s2 ihnchar2
              let p3 := newCell p2.1 0 0 p2.2
              some (1, { p3.1 with buf := wr32 p3.1.buf (t + 1) p3.2 })
          else
            -- needle remainder: no
            if inext = 0 ∨ rd32 s.buf (inext + 2) = 0 then some (0, s)
            else
              let p1 := newCell s 0 (rd32 s.buf (icell + 1)) 0
              some (1, { p1.1 with buf := wr32 p1.1.buf (icell + 1) p1.2 })
        else
          -- split current cell
          let isegchar := v % 16777216
          let s1 :=
            { s with buf := (wr32 s.buf (icell + 2)
                (16777216 * imismatch + isegchar)) }
          let p1 := newCell s1 0 (rd32 s1.buf (icell + 1))
            (16777216 * (lsegchar - imismatch) + (isegchar + imismatch))
          let s2 := { p1.1 with buf := wr32 p1.1.buf (icell + 1) p1.2 }
          if ihnchar2 ≠ 0 then
            let t := rd32 s2.buf (icell + 1)
            let p2 := storeSegment s2 ihnchar2
            let p3 := newCell p2.1 0 0 p2.2
            some (1, { p3.1 with buf := wr32 p3.1.buf t p3.2 })
          else
            let p2 := newCell s2 0 (rd32 s2.buf (icell + 1)) 0
            some (1, { p2.1 with buf := wr32 p2.1.buf (icell + 1) p2.2 })

/-- `add(iroot)` of src/js/hnbigtrie.js: read the needle length, return 0
unchanged when it is 0, otherwise grow the buffer, handle the
empty-root special case (write the whole needle as the root segment),
and otherwise run the walk loop. -/
def add (s : Mgr) (iroot fuel : Nat) : Option (Nat × Mgr) :=
  let ihnchar := s.buf.rd 255
  if ihnchar = 0 then some (0, s)
  else
    let sg := growBuf s
    if rd32 sg.buf (iroot + 2) = 0 then
      let s0 := { sg with buf := wr32 (wr32 sg.buf iroot 0) (iroot + 1) 0 }
      let p1 := storeSegment s0 ihnchar
      some (1, { p1.1 with buf := wr32 p1.1.buf (iroot + 2) p1.2 })
    else addLoop sg iroot ihnchar fuel

/-- A trie reference (`HNBigTrieRef` of src/js/hnbigtrie.js): records the
manager generation id at creation time and the root cell word index. -/
structure HNBigTrieRef where
  id : Nat
  iroot : Nat

/-- `new HNBigTrieRef(iroot)` as performed by `create()`: the reference
captures the current `hnBigTrieManager.id`. -/
def mkRef (s : Mgr) (iroot : Nat) : HNBigTrieRef :=
  ⟨s.id, iroot⟩

/-- `HNBigTrieRef.prototype.isValid`:
`return this.id === hnBigTrieManager.id;`. -/
def HNBigTrieRef.isValid (r : HNBigTrieRef) (s : Mgr) : Bool :=
  r.id == s.id

/-- `HNBigTrieRef.prototype.add(hn)` body
`hnBigTrieManager.setNeedle(hn).add(this.iroot)`, iterated over a list of
hostnames: the state after inserting every hostname of `hs` in order. -/
def addList (s : Mgr) (iroot fuel : Nat) : List (List Nat) → Option Mgr
  | [] => some s
  | h :: t =>
    match add (setNeedle s h) iroot fuel with
    | some p => addList p.2 iroot fuel t
    | none => none

/-- `HNBigTrieRef.prototype.matches(needle)` with the scalar matcher:
`hnBigTrieManager.setNeedle(needle).matchesJS(this.iroot)`. -/
def refMatches (s : Mgr) (iroot : Nat) (needle : List Nat) (fuel : Nat) :
    Option Int :=
  matchesJS (setNeedle s needle) iroot fuel

/-! ### The wasm matcher

Embedding of the `matches` function of the wasm text module at the top of
src/js/wasm/hnbigtrie.wat (the module whose memory layout stores `char0`
at byte address 264).  Linear memory is a byte function together with its
size; a load whose accessed bytes are not all below the memory size traps,
modelled as `none`.  All i32 arithmetic is reduced mod 2^32. -/

/-- `i32.load8_u`: one-byte load, trapping outside the memory. -/
def load8 (mem : Buf) (memLen i : Nat) : Option Nat :=
  if i < memLen then some (mem.rd i) else none

/-- `i32.load`: four-byte little-endian load, trapping when any accessed
byte is outside the memory. -/
def load32 (mem : Buf) (memLen i : Nat) : Option Nat :=
  if i + 4 ≤ memLen then
    some (mem.rd i + 256 * mem.rd (i + 1) + 65536 * mem.rd (i + 2) +
      16777216 * mem.rd (i + 3))
  else none

/-- The `$findSegment` loop of the wasm `matches`: walk the `down` chain
(`icell = this.buf32[icell+0]` in the source comments) until a cell whose
segment starts with byte `c` is found (`some (some (icell, v, i0))`), the
chain ends (`some none`, the `return -1`), a load traps (`none`), or fuel
runs out (`none`). -/
def wasmFindSeg (mem : Buf) (memLen char0 c : Nat) :
    Nat → Nat → Option (Option (Nat × Nat × Nat))
  | _, 0 => none
  | icell, fuel + 1 =>
    match load32 mem memLen (icell + 8) with
    | none => none
    | some v =>
      let i0 := (v % 16777216 + char0) % 4294967296
      match load8 mem memLen i0 with
      | none => none
      | some b =>
        if b = c then some (some (icell, v, i0))
        else
          match load32 mem memLen icell with
          | none => none
          | some d =>
            let icell2 := d * 4 % 4294967296
            if icell2 = 0 then some none
            else wasmFindSeg mem memLen char0 c icell2 fuel

/-- The segment-comparison `do … while ( i0 < i1 )` loop of the wasm
`matches`: `k` counts the remaining iterations (`i1 - i0` at entry);
`some none` is the `return -1` on a byte mismatch, otherwise the updated
`ineedle` is returned. -/
def wasmCmpLoop (mem : Buf) (memLen : Nat) :
    Nat → Nat → Nat → Nat → Option (Option Nat)
  | _, _, _, 0 => none
  | ineedle, i0, i1, k + 1 =>
    let ineedle2 := if ineedle = 0 then 4294967295 else ineedle - 1
    match load8 mem memLen ineedle2, load8 mem memLen i0 with
    | some a, some b =>
      if a ≠ b then some none
      else
        let i02 := i0 + 1
        if i02 < i1 then wasmCmpLoop mem memLen ineedle2 i02 i1 k
        else some (some ineedle2)
    | _, _ => none

/-- The `$noSegment` epilogue of the wasm `matches`:
`return ineedle === 0 || this.buf[ineedle-1] === 0x2E ? ineedle : -1`. -/
def wasmFinal (mem : Buf) (memLen ineedle : Nat) : Option Int :=
  if ineedle = 0 then some 0
  else
    match load8 mem memLen (ineedle - 1) with
    | none => none
    | some p => some (if p = 46 then (ineedle : Int) else -1)

/-- The `$nextSegment` outer loop of the wasm `matches`.  Note the
boundary-cell test of the source loads the word at offset 0 of the cell
(`get_local $icell` followed by a plain `i32.load`), i.e. the `down`
word, although the accompanying comment says `this.buf32[icell+2]`. -/
def wasmLoop (mem : Buf) (memLen char0 : Nat) :
    Nat → Nat → Nat → Option Int
  | _, _, 0 => none
  | icell, ineedle, fuel + 1 =>
    if ineedle = 0 then some (-1)
    else
      let ineedle1 := ineedle - 1
      match load8 mem memLen ineedle1 with
      | none => none
      | some c =>
        match wasmFindSeg mem memLen char0 c icell (fuel + 1) with
        | none => none
        | some none => some (-1)
        | some (some (icell1, v, i0)) =>
          let n := v / 16777216
          let afterCmp : Option (Option Nat) :=
            if 1 < n then
              let n1 := n - 1
              if ineedle1 < n1 then some none
              else wasmCmpLoop mem memLen ineedle1 (i0 + 1) (i0 + 1 + n1) n1
            else some (some ineedle1)
          match afterCmp with
          | none => none
          | some none => some (-1)
          | some (some ineedle2) =>
            match load32 mem memLen (icell1 + 4) with
            | none => none
            | some r =>
              let icell2 := r * 4 % 4294967296
              if icell2 = 0 then wasmFinal mem memLen ineedle2
              else
                match load32 mem memLen icell2 with
                | none => none
                | some d =>
                  if d = 0 then
                    if ineedle2 = 0 then some 0
                    else
                      match load8 mem memLen (ineedle2 - 1) with
                      | none => none
                      | some p =>
                        if p = 46 then some (ineedle2 : Int)
                        else
                          match load32 mem memLen (icell2 + 4) with
                          | none => none
                          | some r2 =>
                            wasmLoop mem memLen char0
                              (r2 * 4 % 4294967296) ineedle2 fuel
                  else wasmLoop mem memLen char0 icell2 ineedle2 fuel

/-- The exported wasm `matches(icell)`: read `char0` from byte address
264, shift the root word index to a byte offset, read the needle length
at byte 255, and run the traversal loop. -/
def wasmMatches (mem : Buf) (memLen iroot fuel : Nat) : Option Int :=
  match load32 mem memLen 264 with
  | none => none
  | some char0 =>
    let icell := iroot * 4 % 4294967296
    match load8 mem memLen 255 with
    | none => none
    | some ineedle => wasmLoop mem memLen char0 icell ineedle fuel

/-! ### The `HNBigTrieContainer` variant

Embedding of the pieces of the later `HNBigTrieContainer` code (inside
src/js/wasm/hnbigtrie.wat) needed by the claims: the constructor, the
`create` method, and the trie iterator of `HNBigTrieRef` (the
`[Symbol.iterator]` method working on the container buffer, whose four
header words live at byte offsets 256, 260, 264 and 268). -/

/-- State of an `HNBigTrieContainer`: unlike the manager, the four region
offsets live inside the buffer itself (words 64–67). -/
structure Cont where
  buf : Buf
  bufLen : Nat
  needle : List Nat

/-- `new HNBigTrieContainer()` with default arguments: a zero-filled
131072-byte buffer whose header words are set to
`TRIE0 = TRIE1 = 272`, `CHAR0 = CHAR1 = 65536`. -/
def contInit : Cont where
  buf :=
    wr32 (wr32 (wr32 (wr32 Buf.zeros 64 272) 65 272) 66 65536) 67 65536
  bufLen := 131072
  needle := []

/-- `HNBigTrieContainer.prototype.create`: allocate a zeroed root cell at
`TRIE1`, advance `TRIE1` by 12, and return the root cell word index. -/
def contCreate (c : Cont) : Cont × Nat :=
  let iroot := rd32 c.buf 65 / 4
  let b1 := wr32 c.buf 65 (rd32 c.buf 65 + 12)
  let b2 := wr32 (wr32 (wr32 b1 iroot 0) (iroot + 1) 0) (iroot + 2) 0
  ({ c with buf := b2 }, iroot)

/-- State of the iterator returned by `HNBigTrieRef.prototype[Symbol.iterator]`:
the cursor cell, the 256-byte reversed-output buffer with its write
pointer, the fork stack (a flat array pushed in pairs), and the
`value`/`done` pair of the last `next()` result (`value = none` models
the JavaScript `undefined`). -/
structure IterSt where
  icell : Nat
  charBuf : Nat → Nat
  charPtr : Nat
  forks : List Nat
  value : Option (List Nat)
  done : Bool

/-- The iterator state created by `[Symbol.iterator]`: cursor at the trie
root, empty output buffer (`charPtr = 256`), no forks. -/
def iterInit (iroot : Nat) : IterSt where
  icell := iroot
  charBuf := fun _ => 0
  charPtr := 256
  forks := []
  value := none
  done := false

/-- The segment-copy loop of the iterator:
`while ( i0 < i1 ) { this.charPtr -= 1; this.charBuf[this.charPtr] = this.container.buf[i0]; i0 += 1; }`,
run for `i1 - i0` iterations. -/
def updF (f : Nat → Nat) (i v : Nat) : Nat → Nat :=
  fun j => if j = i then v % 256 else f j

/-- The segment-copy loop of the iterator, over the container buffer
`src` and the iterator-local `Uint8Array` `charBuf`. -/
def iterSegLoop (src : Buf) (charBuf : Nat → Nat) (charPtr i0 : Nat) :
    Nat → (Nat → Nat) × Nat
  | 0 => (charBuf, charPtr)
  | k + 1 =>
    iterSegLoop src (updF charBuf (charPtr - 1) (src.rd i0)) (charPtr - 1)
      (i0 + 1) k

/-- `toHostname()` of the iterator: decode the bytes
`charBuf[charPtr … 256)` (they are in hostname order, the segment bytes
having been copied backwards). -/
def toHostname (charBuf : Nat → Nat) (charPtr : Nat) : List Nat :=
  (List.range (256 - charPtr)).map fun k => charBuf (charPtr + k)

/-- The `for (;;)` loop of the iterator `next()`: push a fork when the
cell has a descendant, append the segment bytes to the output, follow
`right`, and emit a hostname when `right` is 0 or when a boundary cell is
reached (in the latter case the cursor skips past the boundary cell
first). -/
def iterLoop (c : Cont) :
    Nat → (Nat → Nat) → Nat → List Nat → Nat → Option IterSt
  | _, _, _, _, 0 => none
  | icell, charBuf, charPtr, forks, fuel + 1 =>
    let idown := rd32 c.buf icell
    let forks2 := if idown ≠ 0 then charPtr :: idown :: forks else forks
    let v := rd32 c.buf (icell + 2)
    let i0 := rd32 c.buf 66 + v % 16777216
    let p := iterSegLoop c.buf charBuf charPtr i0 (v / 16777216)
    let icell2 := rd32 c.buf (icell + 1)
    if icell2 = 0 then
      some ⟨icell2, p.1, p.2, forks2, some (toHostname p.1 p.2), false⟩
    else if rd32 c.buf (icell2 + 2) = 0 then
      let icell3 := rd32 c.buf (icell2 + 1)
      some ⟨icell3, p.1, p.2, forks2, some (toHostname p.1 p.2), false⟩
    else iterLoop c icell2 p.1 p.2 forks2 fuel

/-- `next()` of the iterator: when the cursor is 0, pop a fork (or finish
with `done = true` and `value = undefined`); then run the traversal
loop. -/
def iterNext (c : Cont) (it : IterSt) (fuel : Nat) : Option IterSt :=
  if it.icell = 0 then
    match it.forks with
    | [] => some { it with value := none, done := true }
    | charPtr :: icell :: rest =>
      iterLoop c icell it.charBuf charPtr rest fuel
    | _ => none
  else iterLoop c it.icell it.charBuf it.charPtr it.forks fuel

/-! ### Spec-side predicates and concrete states

The predicates below formalise the conditions the spec (section 8 and
section 4.4 of spec.md) places on `matches`; they are stated from the
spec's words, to be compared with what the code computes.  The concrete
states are built exclusively by running the embedded source operations
(`create`, `setNeedle`, `add`) from the initial manager state.
Character codes used: a=97, b=98, c=99, d=100, y=121, z=122, C=67,
dot=46. -/

/-- The spec's match condition: query `q` equals some stored hostname or
ends with a dot followed by one (spec.md section 8, property 1). -/
def specHit (H : List (List Nat)) (q : List Nat) : Prop :=
  ∃ h ∈ H, q = h ∨ (46 :: h) <:+ q

/-- The spec's contract on a successful match offset `k` (spec.md
section 8, property 4): `q[k..]` is a stored hostname and either `k = 0`
or `q[k-1]` is a dot. -/
def offsetOk (H : List (List Nat)) (q : List Nat) (k : Nat) : Prop :=
  q.drop k ∈ H ∧ (k = 0 ∨ q.getD (k - 1) 0 = 46)

instance (H : List (List Nat)) (q : List Nat) : Decidable (specHit H q) :=
  decidable_of_iff (∃ h ∈ H, q = h ∨ (46 :: h) <:+ q) Iff.rfl

instance (H : List (List Nat)) (q : List Nat) (k : Nat) :
    Decidable (offsetOk H q k) :=
  decidable_of_iff (q.drop k ∈ H ∧ (k = 0 ∨ q.getD (k - 1) 0 = 46)) Iff.rfl

/-- The manager state after `create()` on the fresh manager; the root
cell of the created trie has word index `(create mgrInit).2 = 64`. -/
def mgr0 : Mgr := (create mgrInit).1

/-- The manager state produced by `reset` on the initial manager:
everything cleared, generation id 1. -/
def mgrReset : Mgr where
  buf := Buf.zeros
  bufLen := 131072
  trie0 := 256
  trie1 := 256
  char0 := 65536
  char1 := 65536
  id := 1
  needle := []
  segments := []

/-- State after inserting the hostnames ab and cb. -/
def stC1 : Option Mgr := addList mgr0 64 100 [[97, 98], [99, 98]]

/-- State after inserting the hostnames ab and c.ab. -/
def stC2 : Option Mgr := addList mgr0 64 100 [[97, 98], [99, 46, 97, 98]]

/-- State after inserting the single hostname a. -/
def stC3 : Option Mgr := addList mgr0 64 100 [[97]]

/-- State after inserting bc, dc, yyyyy, zzzzC in that order. -/
def stC5a : Option Mgr :=
  addList mgr0 64 100
    [[98, 99], [100, 99], [121, 121, 121, 121, 121],
      [122, 122, 122, 122, 67]]

/-- State after inserting bc, dc, zzzzC, yyyyy in that order (the same
four hostnames as `stC5a` with the last two swapped). -/
def stC5b : Option Mgr :=
  addList mgr0 64 100
    [[98, 99], [100, 99], [122, 122, 122, 122, 67],
      [121, 121, 121, 121, 121]]

/-- Rebuild a byte store from the list of raw `write` operations applied
to a fresh zero-filled buffer, oldest first; used to state checkpoint
states compactly. -/
def bufOfWrites (l : List (Nat × Nat)) : Buf :=
  l.foldl (fun b p => Buf.write b p.1 p.2) Buf.zeros

/-- Checkpoint state for the insertion-order claim: the manager after
inserting bc into the freshly created trie, written out as an
explicit state (validated against the embedded `add` by the step lemmas
below). -/
def mC5x1 : Mgr where
  buf := bufOfWrites [
      (256, 0), (257, 0), (258, 0), (259, 0), (260, 0), (261, 0),
      (262, 0), (263, 0), (264, 0), (265, 0), (266, 0), (267, 0),
      (255, 2), (1, 99), (0, 98), (256, 0), (257, 0), (258, 0),
      (259, 0), (260, 0), (261, 0), (262, 0), (263, 0), (65536, 99),
      (65537, 98), (264, 33554432), (265, 131072), (266, 512), (267, 2)]
  bufLen := 131072
  trie0 := 256
  trie1 := 268
  char0 := 65536
  char1 := 65538
  id := 0
  needle := [98, 99]
  segments := [([98, 99], 0)]

/-- Checkpoint state for the insertion-order claim: the manager after
then inserting dc (which splits the root cell), written out as an
explicit state (validated against the embedded `add` by the step lemmas
below). -/
def mC5x2 : Mgr where
  buf := bufOfWrites [
      (256, 0), (257, 0), (258, 0), (259, 0), (260, 0), (261, 0),
      (262, 0), (263, 0), (264, 0), (265, 0), (266, 0), (267, 0),
      (255, 2), (1, 99), (0, 98), (256, 0), (257, 0), (258, 0),
      (259, 0), (260, 0), (261, 0), (262, 0), (263, 0), (65536, 99),
      (65537, 98), (264, 33554432), (265, 131072), (266, 512), (267, 2), (255, 2),
      (1, 99), (0, 100), (264, 16777216), (265, 65536), (266, 256), (267, 1),
      (268, 0), (269, 0), (270, 0), (271, 0), (272, 0), (273, 0),
      (274, 0), (275, 0), (276, 16777217), (277, 65536), (278, 256), (279, 1),
      (260, 67), (261, 0), (262, 0), (263, 0), (65538, 100), (280, 0),
      (281, 0), (282, 0), (283, 0), (284, 0), (285, 0), (286, 0),
      (287, 0), (288, 16777218), (289, 65536), (290, 256), (291, 1), (268, 70),
      (269, 0), (270, 0), (271, 0)]
  bufLen := 131072
  trie0 := 256
  trie1 := 292
  char0 := 65536
  char1 := 65539
  id := 0
  needle := [100, 99]
  segments := [([100], 2), ([98, 99], 0)]

/-- Checkpoint state for the insertion-order claim: the manager after
then inserting yyyyy, written out as an
explicit state (validated against the embedded `add` by the step lemmas
below). -/
def mC5a3 : Mgr where
  buf := bufOfWrites [
      (256, 0), (257, 0), (258, 0), (259, 0), (260, 0), (261, 0),
      (262, 0), (263, 0), (264, 0), (265, 0), (266, 0), (267, 0),
      (255, 2), (1, 99), (0, 98), (256, 0), (257, 0), (258, 0),
      (259, 0), (260, 0), (261, 0), (262, 0), (263, 0), (65536, 99),
      (65537, 98), (264, 33554432), (265, 131072), (266, 512), (267, 2), (255, 2),
      (1, 99), (0, 100), (264, 16777216), (265, 65536), (266, 256), (267, 1),
      (268, 0), (269, 0), (270, 0), (271, 0), (272, 0), (273, 0),
      (274, 0), (275, 0), (276, 16777217), (277, 65536), (278, 256), (279, 1),
      (260, 67), (261, 0), (262, 0), (263, 0), (65538, 100), (280, 0),
      (281, 0), (282, 0), (283, 0), (284, 0), (285, 0), (286, 0),
      (287, 0), (288, 16777218), (289, 65536), (290, 256), (291, 1), (268, 70),
      (269, 0), (270, 0), (271, 0), (255, 5), (4, 121), (3, 121),
      (2, 121), (1, 121), (0, 121), (65539, 121), (65540, 121), (65541, 121),
      (65542, 121), (65543, 121), (292, 0), (293, 0), (294, 0), (295, 0),
      (296, 0), (297, 0), (298, 0), (299, 0), (300, 83886083), (301, 327680),
      (302, 1280), (303, 5), (256, 73), (257, 0), (258, 0), (259, 0)]
  bufLen := 131072
  trie0 := 256
  trie1 := 304
  char0 := 65536
  char1 := 65544
  id := 0
  needle := [121, 121, 121, 121, 121]
  segments := [([121, 121, 121, 121, 121], 3), ([100], 2), ([98, 99], 0)]

/-- Checkpoint state for the insertion-order claim: the manager after
then inserting zzzzC (insertion order bc, dc, yyyyy, zzzzC), written out as an
explicit state (validated against the embedded `add` by the step lemmas
below). -/
def mC5a4 : Mgr where
  buf := bufOfWrites [
      (256, 0), (257, 0), (258, 0), (259, 0), (260, 0), (261, 0),
      (262, 0), (263, 0), (264, 0), (265, 0), (266, 0), (267, 0),
      (255, 2), (1, 99), (0, 98), (256, 0), (257, 0), (258, 0),
      (259, 0), (260, 0), (261, 0), (262, 0), (263, 0), (65536, 99),
      (65537, 98), (264, 33554432), (265, 131072), (266, 512), (267, 2), (255, 2),
      (1, 99), (0, 100), (264, 16777216), (265, 65536), (266, 256), (267, 1),
      (268, 0), (269, 0), (270, 0), (271, 0), (272, 0), (273, 0),
      (274, 0), (275, 0), (276, 16777217), (277, 65536), (278, 256), (279, 1),
      (260, 67), (261, 0), (262, 0), (263, 0), (65538, 100), (280, 0),
      (281, 0), (282, 0), (283, 0), (284, 0), (285, 0), (286, 0),
      (287, 0), (288, 16777218), (289, 65536), (290, 256), (291, 1), (268, 70),
      (269, 0), (270, 0), (271, 0), (255, 5), (4, 121), (3, 121),
      (2, 121), (1, 121), (0, 121), (65539, 121), (65540, 121), (65541, 121),
      (65542, 121), (65543, 121), (292, 0), (293, 0), (294, 0), (295, 0),
      (296, 0), (297, 0), (298, 0), (299, 0), (300, 83886083), (301, 327680),
      (302, 1280), (303, 5), (256, 73), (257, 0), (258, 0), (259, 0),
      (255, 5), (4, 67), (3, 122), (2, 122), (1, 122), (0, 122),
      (65544, 67), (65545, 122), (65546, 122), (65547, 122), (65548, 122), (304, 0),
      (305, 0), (306, 0), (307, 0), (308, 0), (309, 0), (310, 0),
      (311, 0), (312, 83886088), (313, 327680), (314, 1280), (315, 5), (292, 76),
      (293, 0), (294, 0), (295, 0)]
  bufLen := 131072
  trie0 := 256
  trie1 := 316
  char0 := 65536
  char1 := 65549
  id := 0
  needle := [122, 122, 122, 122, 67]
  segments := [([122, 122, 122, 122, 67], 8), ([121, 121, 121, 121, 121], 3), ([100], 2), ([98, 99], 0)]

/-- Checkpoint state for the insertion-order claim: the manager after
then inserting zzzzC after bc and dc, written out as an
explicit state (validated against the embedded `add` by the step lemmas
below). -/
def mC5b3 : Mgr where
  buf := bufOfWrites [
      (256, 0), (257, 0), (258, 0), (259, 0), (260, 0), (261, 0),
      (262, 0), (263, 0), (264, 0), (265, 0), (266, 0), (267, 0),
      (255, 2), (1, 99), (0, 98), (256, 0), (257, 0), (258, 0),
      (259, 0), (260, 0), (261, 0), (262, 0), (263, 0), (65536, 99),
      (65537, 98), (264, 33554432), (265, 131072), (266, 512), (267, 2), (255, 2),
      (1, 99), (0, 100), (264, 16777216), (265, 65536), (266, 256), (267, 1),
      (268, 0), (269, 0), (270, 0), (271, 0), (272, 0), (273, 0),
      (274, 0), (275, 0), (276, 16777217), (277, 65536), (278, 256), (279, 1),
      (260, 67), (261, 0), (262, 0), (263, 0), (65538, 100), (280, 0),
      (281, 0), (282, 0), (283, 0), (284, 0), (285, 0), (286, 0),
      (287, 0), (288, 16777218), (289, 65536), (290, 256), (291, 1), (268, 70),
      (269, 0), (270, 0), (271, 0), (255, 5), (4, 67), (3, 122),
      (2, 122), (1, 122), (0, 122), (65539, 67), (65540, 122), (65541, 122),
      (65542, 122), (65543, 122), (292, 0), (293, 0), (294, 0), (295, 0),
      (296, 0), (297, 0), (298, 0), (299, 0), (300, 83886083), (301, 327680),
      (302, 1280), (303, 5), (256, 73), (257, 0), (258, 0), (259, 0)]
  bufLen := 131072
  trie0 := 256
  trie1 := 304
  char0 := 65536
  char1 := 65544
  id := 0
  needle := [122, 122, 122, 122, 67]
  segments := [([122, 122, 122, 122, 67], 3), ([100], 2), ([98, 99], 0)]

/-- Checkpoint state for the insertion-order claim: the manager after
then inserting yyyyy (insertion order bc, dc, zzzzC, yyyyy), written out as an
explicit state (validated against the embedded `add` by the step lemmas
below). -/
def mC5b4 : Mgr where
  buf := bufOfWrites [
      (256, 0), (257, 0), (258, 0), (259, 0), (260, 0), (261, 0),
      (262, 0), (263, 0), (264, 0), (265, 0), (266, 0), (267, 0),
      (255, 2), (1, 99), (0, 98), (256, 0), (257, 0), (258, 0),
      (259, 0), (260, 0), (261, 0), (262, 0), (263, 0), (65536, 99),
      (65537, 98), (264, 33554432), (265, 131072), (266, 512), (267, 2), (255, 2),
      (1, 99), (0, 100), (264, 16777216), (265, 65536), (266, 256), (267, 1),
      (268, 0), (269, 0), (270, 0), (271, 0), (272, 0), (273, 0),
      (274, 0), (275, 0), (276, 16777217), (277, 65536), (278, 256), (279, 1),
      (260, 67), (261, 0), (262, 0), (263, 0), (65538, 100), (280, 0),
      (281, 0), (282, 0), (283, 0), (284, 0), (285, 0), (286, 0),
      (287, 0), (288, 16777218), (289, 65536), (290, 256), (291, 1), (268, 70),
      (269, 0), (270, 0), (271, 0), (255, 5), (4, 67), (3, 122),
      (2, 122), (1, 122), (0, 122), (65539, 67), (65540, 122), (65541, 122),
      (65542, 122), (65543, 122), (292, 0), (293, 0), (294, 0), (295, 0),
      (296, 0), (297, 0), (298, 0), (299, 0), (300, 83886083), (301, 327680),
      (302, 1280), (303, 5), (256, 73), (257, 0), (258, 0), (259, 0),
      (255, 5), (4, 121), (3, 121), (2, 121), (1, 121), (0, 121),
      (65544, 121), (65545, 121), (65546, 121), (65547, 121), (65548, 121), (304, 0),
      (305, 0), (306, 0), (307, 0), (308, 0), (309, 0), (310, 0),
      (311, 0), (312, 83886088), (313, 327680), (314, 1280), (315, 5), (292, 76),
      (293, 0), (294, 0), (295, 0)]
  bufLen := 131072
  trie0 := 256
  trie1 := 316
  char0 := 65536
  char1 := 65549
  id := 0
  needle := [121, 121, 121, 121, 121]
  segments := [([121, 121, 121, 121, 121], 8), ([122, 122, 122, 122, 67], 3), ([100], 2), ([98, 99], 0)]

/-- State after inserting the single hostname ab (used for the
`optimize` claim). -/
def stC9 : Option Mgr := addList mgr0 64 100 [[97, 98]]

/-- A fresh `HNBigTrieContainer` with one created (still empty) trie;
the root cell word index is `(contCreate contInit).2 = 68`. -/
def cont0 : Cont := (contCreate contInit).1

/-- The id-preserving evolutions of the manager state: any sequence of
`setNeedle`, `add`, `create` and `optimize` steps (every mutating
operation of src/js/hnbigtrie.js except `reset`). -/
inductive Evolves : Mgr → Mgr → Prop
  | refl (s : Mgr) : Evolves s s
  | needleStep (s t : Mgr) (h : List Nat) :
      Evolves s t → Evolves s (setNeedle t h)
  | addStep (s t t2 : Mgr) (iroot fuel r : Nat) :
      Evolves s t → add t iroot fuel = some (r, t2) → Evolves s t2
  | createStep (s t : Mgr) : Evolves s t → Evolves s (create t).1
  | optimizeStep (s t : Mgr) : Evolves s t → Evolves s (optimize t)

/-! ### Abstract radix chains (for the idempotence claim)

To settle the idempotence of `add` for arbitrary insertion sequences we
relate the byte-level trie to an abstract radix chain: a `TCh` is the
alternatives chain hanging from a cell by `down` links, each alternative
carrying a segment (in traversal order, i.e. the reversed-hostname
order), whether a stored hostname ends right after it (a null `right` or
a boundary cell in the buffer), the continuation chain, and the
remaining alternatives.  `addA` mirrors the walk of `add` in
src/js/hnbigtrie.js on this abstraction: hostnames are processed as
reversed byte lists. -/

/-- Abstract alternatives chain of a trie. -/
inductive TCh where
  | nil : TCh
  | cell (seg : List Nat) (ends : Bool) (next alt : TCh) : TCh
  deriving DecidableEq

/-- Number of cells of a chain (used only to bound walk fuel). -/
def sizeT : TCh → Nat
  | .nil => 0
  | .cell _ _ next alt => 1 + sizeT next + sizeT alt

/-- Length of the longest common prefix of two byte lists (what
`indexOfMismatch` computes on the buffer). -/
def lcpLen : List Nat → List Nat → Nat
  | a :: as, b :: bs => if a = b then lcpLen as bs + 1 else 0
  | _, _ => 0

/-- The insertion walk of `add` on abstract chains.  `rh` is the
reversed hostname (consumed from the head, which corresponds to the last
needle byte).  Returns the new chain and whether anything was added. -/
def addA (rh : List Nat) : TCh → TCh × Bool
  | .nil => (.cell rh true .nil .nil, true)
  | .cell seg ends next alt =>
    let m := lcpLen seg rh
    if m = 0 then
      let p := addA rh alt
      (.cell seg ends next p.1, p.2)
    else if m = seg.length then
      if rh.drop m = [] then
        if ends then (.cell seg ends next alt, false)
        else (.cell seg true next alt, true)
      else
        if next = .nil then
          (.cell seg ends (.cell (rh.drop m) true .nil .nil) alt, true)
        else
          let p := addA (rh.drop m) next
          (.cell seg ends p.1 alt, p.2)
    else
      if rh.drop m = [] then
        (.cell (seg.take m) true (.cell (seg.drop m) ends next .nil) alt, true)
      else
        (.cell (seg.take m) false
          (.cell (seg.drop m) ends next (.cell (rh.drop m) true .nil .nil))
          alt, true)

/-- Well-formed chains: segments are nonempty and a cell with no
continuation marks the end of a stored hostname (a null `right` pointer
in the buffer means the hostname ends there). -/
def wfT : TCh → Prop
  | .nil => True
  | .cell seg ends next alt =>
    seg ≠ [] ∧ (next = .nil → ends = true) ∧ wfT next ∧ wfT alt

/-- A chain contains the reversed hostname `rh` exactly when the
insertion walk reports nothing to add and leaves the chain unchanged. -/
def containsA (rh : List Nat) (t : TCh) : Prop :=
  addA rh t = (t, false)

/-! ### Refinement of the buffer trie to abstract chains

`Rep s icell t fp` states that the cell chain rooted at word index
`icell` of manager state `s` represents the abstract chain `t`; `fp` is
its footprint, the list of cell word indices used, needed to frame cell
mutations.  All cells are allocated 12 bytes apart from word 64 on, so
every cell word index is 1 mod 3 and distinct footprint entries occupy
disjoint byte ranges. -/

/-- The segment bytes stored in the pool at offset `off`. -/
def readSeg (s : Mgr) (off len : Nat) : List Nat :=
  (List.range len).map fun i => s.buf.rd (s.char0 + off + i)

/-- The current needle read right to left from position `k`, i.e. the
reversed query prefix the walk consumes. -/
def readNdl (s : Mgr) (k : Nat) : List Nat :=
  (List.range k).map fun i => s.buf.rd (k - 1 - i)

/-- A hostname the idempotence claim quantifies over: nonempty, at most
255 characters (so `setNeedle` stores it whole), 8-bit character
codes. -/
def goodHN (h : List Nat) : Prop :=
  h ≠ [] ∧ h.length ≤ 255 ∧ ∀ c ∈ h, c < 256

/-- Layout invariant of the manager state maintained by `setNeedle` and
`add` from the state `mgr0` on.  `trie1 % 12 = 4` pins every allocated
cell to a word index that is 1 mod 3; `bufLen_ub` records that the
buffer never outgrows the 64 KiB round-up of the pool end plus the
256-byte tail, which is what makes `growBuf` restore the 24-byte cell
reserve. -/
structure Inv (s : Mgr) : Prop where
  trie1_lb : 256 ≤ s.trie1
  trie1_mod : s.trie1 % 12 = 4
  trie1_le : s.trie1 ≤ s.char0
  char_le : s.char0 ≤ s.char1
  char0_mod : s.char0 % 65536 = 0
  bufLen_ub : s.bufLen ≤ (s.char1 + 256 + 65535) / 65536 * 65536

/-- Coherence of the needle area with the cached needle string: byte 255
holds the clamped length and the needle bytes hold the character
codes. -/
def NdlOk (s : Mgr) : Prop :=
  s.buf.rd 255 = min s.needle.length 255 ∧
  ∀ i, i < min s.needle.length 255 → s.buf.rd i = s.needle.getD i 0 % 256

/-- Coherence of the segment-dedup map: every entry points at pool bytes
holding its reversed masked string. -/
def segMapOk (s : Mgr) : Prop :=
  ∀ p ∈ s.segments,
    p.2 + p.1.length ≤ s.char1 - s.char0 ∧
    ∀ i, i < p.1.length →
      s.buf.rd (s.char0 + p.2 + i) = p.1.getD (p.1.length - 1 - i) 0 % 256

/-- A live segment cell at word index `icell` carrying the segment
`seg` at pool offset `off`. -/
def CellOk (s : Mgr) (icell off : Nat) (seg : List Nat) : Prop :=
  icell ≠ 0 ∧ icell % 3 = 1 ∧ 256 ≤ 4 * icell ∧ 4 * icell + 12 ≤ s.trie1 ∧
  rd32 s.buf (icell + 2) = 16777216 * seg.length + off ∧
  off + seg.length ≤ s.char1 - s.char0 ∧ off < 16777216 ∧
  seg ≠ [] ∧ seg.length ≤ 255 ∧ seg = readSeg s off seg.length

/-- A boundary cell at word index `b` (zero segment word). -/
def BdryOk (s : Mgr) (b : Nat) : Prop :=
  b ≠ 0 ∧ b % 3 = 1 ∧ 256 ≤ 4 * b ∧ 4 * b + 12 ≤ s.trie1 ∧
  rd32 s.buf (b + 2) = 0

/-- The refinement relation between a cell chain in the buffer and an
abstract chain, carrying the footprint of used cell indices.  The three
node constructors mirror the three shapes of the `right` pointer: null
(`stop`), a boundary cell (`bdry`), or a further segment cell (`go`). -/
inductive Rep (s : Mgr) : Nat → TCh → List Nat → Prop where
  | nil : Rep s 0 TCh.nil []
  | stop (icell off : Nat) (seg : List Nat) (alt : TCh) (fpA : List Nat) :
      CellOk s icell off seg →
      rd32 s.buf (icell + 1) = 0 →
      Rep s (rd32 s.buf icell) alt fpA →
      icell ∉ fpA →
      Rep s icell (.cell seg true .nil alt) (icell :: fpA)
  | bdry (icell off b : Nat) (seg : List Nat) (next alt : TCh)
      (fpN fpA : List Nat) :
      CellOk s icell off seg →
      rd32 s.buf (icell + 1) = b →
      BdryOk s b →
      rd32 s.buf (b + 1) ≠ 0 →
      Rep s (rd32 s.buf (b + 1)) next fpN →
      Rep s (rd32 s.buf icell) alt fpA →
      icell ∉ fpN → icell ∉ fpA → b ∉ fpN → b ∉ fpA → icell ≠ b →
      (∀ x ∈ fpN, x ∉ fpA) →
      Rep s icell (.cell seg true next alt) (icell :: b :: (fpN ++ fpA))
  | go (icell off : Nat) (seg : List Nat) (next alt : TCh)
      (fpN fpA : List Nat) :
      CellOk s icell off seg →
      rd32 s.buf (icell + 1) ≠ 0 →
      Rep s (rd32 s.buf (icell + 1)) next fpN →
      Rep s (rd32 s.buf icell) alt fpA →
      icell ∉ fpN → icell ∉ fpA →
      (∀ x ∈ fpN, x ∉ fpA) →
      Rep s icell (.cell seg false next alt) (icell :: (fpN ++ fpA))

/-- The representation of a whole trie root: either the zeroed cell of a
freshly created trie (empty chain) or a live chain. -/
inductive RootRep (s : Mgr) (iroot : Nat) : TCh → List Nat → Prop where
  | empty :
      iroot ≠ 0 → iroot % 3 = 1 → 256 ≤ 4 * iroot →
      4 * iroot + 12 ≤ s.trie1 →
      rd32 s.buf (iroot + 2) = 0 →
      RootRep s iroot TCh.nil [iroot]
  | node (t : TCh) (fp : List Nat) : Rep s iroot t fp → RootRep s iroot t fp

/-! ### Theorems for the claims -/

set_option maxHeartbeats 4000000 in
/-- C1: the claim states that `matches(q)` returns a value ≥ 0 iff `q`
equals a stored hostname or ends with a dot followed by one.  The code
violates it: after inserting ab and cb (which splits the root cell), the
query b — which matches nothing — makes `matchesJS` walk the whole
descendant chain with an exhausted needle and return 0 through the final
`labelBoundary` line, a non-negative result for a non-member. -/
theorem c1_matches_nonmember_zero :
    stC1.map (fun s => refMatches s 64 [98] 100) = some (some 0) ∧
      ¬ specHit [[97, 98], [99, 98]] [98] := by
  constructor
  · decide
  · decide

set_option maxHeartbeats 4000000 in
/-- C2: the claim states that a successful `matches` result `k` always
satisfies `q[k..] ∈ H` and (`k = 0` or `q[k-1] = '.'`).  The code
violates it: after inserting ab and c.ab, the query ab is a stored
hostname, yet `matchesJS` returns 1 (the `return 1;` taken at a boundary
cell) instead of the offset 0, and `k = 1` satisfies neither condition:
`q[1..] = b` is not stored and `q[0] = a` is not a dot. -/
theorem c2_offset_contract_broken :
    stC2.map (fun s => refMatches s 64 [97, 98] 100) = some (some 1) ∧
      ¬ offsetOk [[97, 98], [99, 46, 97, 98]] [97, 98] 1 := by
  constructor
  · decide
  · decide

set_option maxHeartbeats 4000000 in
/-- C3: the claim states that the scalar matcher and the wasm matcher
return the same result on the same buffer and needle.  They do not: on
the buffer built by inserting the hostname a with needle a, `matchesJS`
returns 1 while the wasm `matches` — which expects `char0` at byte
address 264, where this buffer stores the root cell's segment word
16777216 — traps on an out-of-bounds load (result `none`). -/
theorem c3_scalar_wasm_disagree :
    stC3.map (fun s => matchesJS (setNeedle s [97]) 64 100) =
        some (some 1) ∧
      stC3.map (fun s => wasmMatches (setNeedle s [97]).buf 131072 64 100) =
        some none := by
  constructor
  · decide
  · decide

/-- Inserting bc into the fresh trie yields the checkpoint state `mC5x1`. -/
lemma c5_step1 : add (setNeedle mgr0 [98, 99]) 64 100 = some (1, mC5x1) := by
  decide

/-- Inserting dc next yields `mC5x2`. -/
lemma c5_step2 :
    add (setNeedle mC5x1 [100, 99]) 64 100 = some (1, mC5x2) := by
  decide

/-- Inserting yyyyy after bc, dc yields `mC5a3`. -/
lemma c5_step3a :
    add (setNeedle mC5x2 [121, 121, 121, 121, 121]) 64 100 =
      some (1, mC5a3) := by
  decide

/-- Inserting zzzzC last yields `mC5a4`. -/
lemma c5_step4a :
    add (setNeedle mC5a3 [122, 122, 122, 122, 67]) 64 100 =
      some (1, mC5a4) := by
  decide

/-- Inserting zzzzC after bc, dc yields `mC5b3`. -/
lemma c5_step3b :
    add (setNeedle mC5x2 [122, 122, 122, 122, 67]) 64 100 =
      some (1, mC5b3) := by
  decide

/-- Inserting yyyyy last yields `mC5b4`. -/
lemma c5_step4b :
    add (setNeedle mC5b3 [121, 121, 121, 121, 121]) 64 100 =
      some (1, mC5b4) := by
  decide

/-- One step of `addList` rewritten through a known `add` result. -/
lemma addList_cons (s t : Mgr) (iroot fuel r : Nat) (h : List Nat)
    (hs : List (List Nat))
    (hadd : add (setNeedle s h) iroot fuel = some (r, t)) :
    addList s iroot fuel (h :: hs) = addList t iroot fuel hs := by
  simp [addList, hadd]

/-- The first insertion order ends in the checkpoint state `mC5a4`. -/
lemma stC5a_eval : stC5a = some mC5a4 := by
  unfold stC5a
  rw [addList_cons _ _ _ _ _ _ _ c5_step1, addList_cons _ _ _ _ _ _ _ c5_step2,
    addList_cons _ _ _ _ _ _ _ c5_step3a, addList_cons _ _ _ _ _ _ _ c5_step4a]
  rfl

/-- The second insertion order ends in the checkpoint state `mC5b4`. -/
lemma stC5b_eval : stC5b = some mC5b4 := by
  unfold stC5b
  rw [addList_cons _ _ _ _ _ _ _ c5_step1, addList_cons _ _ _ _ _ _ _ c5_step2,
    addList_cons _ _ _ _ _ _ _ c5_step3b, addList_cons _ _ _ _ _ _ _ c5_step4b]
  rfl

set_option maxHeartbeats 4000000 in
/-- C5: the claim states that insertion order never affects `matches`
results.  It does: the two insertion orders of `stC5a` and `stC5b` are
permutations of one another, yet the query bbc returns 1 on the first
trie and −1 on the second — after the query's traversal ends, the stale
needle byte at offset 4 (left behind by the last inserted 5-character
hostname, which differs between the orders) is read back as a cell
index, and in the first order it points at a cell whose segment matches
the remaining query. -/
theorem c5_insertion_order_observable :
    ([[98, 99], [100, 99], [121, 121, 121, 121, 121],
        [122, 122, 122, 122, 67]] : List (List Nat)).Perm
      [[98, 99], [100, 99], [122, 122, 122, 122, 67],
        [121, 121, 121, 121, 121]] ∧
    stC5a.map (fun s => refMatches s 64 [98, 98, 99] 100) =
      some (some 1) ∧
    stC5b.map (fun s => refMatches s 64 [98, 98, 99] 100) =
      some (some (-1)) := by
  refine ⟨by decide, ?_, ?_⟩
  · rw [stC5a_eval]
    decide
  · rw [stC5b_eval]
    decide

set_option maxHeartbeats 4000000 in
/-- C6: the claim states that iterating a trie yields exactly the set of
inserted hostnames.  On a freshly created trie with no insertions the
iterator nevertheless yields one element — the empty hostname — before
finishing: the first `next()` returns `done = false` with the empty
string as value, and only the second returns `done = true`. -/
theorem c6_iterator_empty_trie_yields :
    (contCreate contInit).2 = 68 ∧
    (iterNext cont0 (iterInit 68) 100).map
        (fun st => (st.done, st.value, st.icell, st.forks)) =
      some (false, some [], 0, []) ∧
    ((iterNext cont0 (iterInit 68) 100).bind
        (fun st => iterNext cont0 st 100)).map
        (fun st => (st.done, st.value)) =
      some (true, none) := by
  refine ⟨by decide, by decide, by decide⟩

set_option maxHeartbeats 4000000 in
/-- C9: the claim states that after `optimize` the invariants
`CHAR0 − TRIE1 ≥ 24` and `B − CHAR1 ≥ 256` still hold.  The manager's
`shrinkBuf` uses `(trie1 + 3) & ~3` and `(char1 + 3) & ~3` with no
24-byte or 256-byte reserve: after inserting the single hostname ab and
optimizing, `CHAR0 − TRIE1 = 0` and `B − CHAR1 = 2`. -/
theorem c9_optimize_reserves_lost :
    stC9.map (fun s =>
        ((optimize s).char0 - (optimize s).trie1,
          (optimize s).bufLen - (optimize s).char1)) =
      some (0, 2) := by
  decide

/-- Helper for the truncation claim: bytes at index `j ≥ i` are untouched
by the `setNeedle` write loop, which writes indices `i-1, …, 0` only. -/
lemma setNeedleLoop_rd_of_le (needle : List Nat) :
    ∀ (i : Nat) (f : Buf) (j : Nat), i ≤ j →
      (setNeedleLoop needle f i).rd j = f.rd j := by
  intro i
  induction i with
  | zero => intro f j _; rfl
  | succ n ih =>
    intro f j hj
    rw [setNeedleLoop, ih _ _ (Nat.le_of_succ_le hj)]
    have hne : j ≠ n := Nat.ne_of_gt (Nat.lt_of_succ_le hj)
    simp [wr8, Buf.rd, hne]

/-- C7: with an empty needle (byte 255 of the buffer is 0), `add` returns
0 without touching the state — its length check precedes `growBuf` and
every write — and `matchesJS` returns −1, on every manager state, root
and fuel. -/
theorem c7_empty_needle_noop (s : Mgr) (iroot fuel : Nat)
    (h : s.buf.rd 255 = 0) :
    add s iroot fuel = some (0, s) ∧ matchesJS s iroot fuel = some (-1) := by
  constructor
  · unfold add
    simp [h]
  · unfold matchesJS
    simp [h]

/-- Witness for C7 at the initial manager state. -/
theorem c7_empty_needle_noop_witness :
    add mgrInit 64 5 = some (0, mgrInit) ∧
      matchesJS mgrInit 64 5 = some (-1) :=
  c7_empty_needle_noop mgrInit 64 5 rfl

set_option maxRecDepth 10000 in
/-- C8, counterexample: the claim says a string longer than 254
characters is truncated so that the stored needle length (byte 255) is
exactly 254; for a 255-character input the `setNeedle` of
src/js/hnbigtrie.js stores 255, not 254. -/
theorem c8_trunc_at_255_counterexample :
    (setNeedle mgrInit (List.replicate 255 97)).buf.rd 255 = 255 ∧
      (setNeedle mgrInit (List.replicate 255 97)).buf.rd 255 ≠ 254 := by
  refine ⟨by decide, by decide⟩

/-- C8, amended: `setNeedle` of src/js/hnbigtrie.js clamps the needle
length to 255 (not 254): whenever the argument differs from the cached
needle, the stored length byte is `min(length, 255)` and the bytes
between the needle and the length byte are untouched, so at most 255
needle bytes are written. -/
theorem c8_needle_truncated_to_255 (s : Mgr) (needle : List Nat)
    (hne : needle ≠ s.needle) :
    (setNeedle s needle).buf.rd 255 = min needle.length 255 ∧
      ∀ j, min needle.length 255 ≤ j → j < 255 →
        (setNeedle s needle).buf.rd j = s.buf.rd j := by
  unfold setNeedle
  rw [if_neg hne]
  constructor
  · rw [setNeedleLoop_rd_of_le _ _ _ _ (Nat.min_le_right _ _)]
    simp only [wr8, Buf.rd, if_pos rfl]
    exact Nat.mod_eq_of_lt (Nat.lt_succ_of_le (Nat.min_le_right _ _))
  · intro j hj hlt
    rw [setNeedleLoop_rd_of_le _ _ _ _ hj]
    simp [wr8, Buf.rd, Nat.ne_of_lt hlt]

/-- Witness for C8 (amended) at a concrete 3-character needle. -/
theorem c8_needle_truncated_to_255_witness :
    (setNeedle mgrInit [97, 98, 99]).buf.rd 255 = min 3 255 ∧
      ∀ j, min 3 255 ≤ j → j < 255 →
        (setNeedle mgrInit [97, 98, 99]).buf.rd j = mgrInit.buf.rd j :=
  c8_needle_truncated_to_255 mgrInit [97, 98, 99] (by decide)

/-- `setNeedle` never changes the generation id. -/
lemma setNeedle_id (s : Mgr) (n : List Nat) : (setNeedle s n).id = s.id := by
  unfold setNeedle
  split <;> rfl

/-- `resizeBuf` never changes the generation id. -/
lemma resizeBuf_id (s : Mgr) (a b c : Nat) : (resizeBuf s a b c).id = s.id := by
  unfold resizeBuf
  split <;> rfl

/-- `growBuf` never changes the generation id. -/
lemma growBuf_id (s : Mgr) : (growBuf s).id = s.id := by
  unfold growBuf
  exact resizeBuf_id _ _ _ _

/-- `shrinkBuf` never changes the generation id. -/
lemma shrinkBuf_id (s : Mgr) : (shrinkBuf s).id = s.id := by
  unfold shrinkBuf
  exact resizeBuf_id _ _ _ _

/-- `optimize` never changes the generation id. -/
lemma optimize_id (s : Mgr) : (optimize s).id = s.id := by
  unfold optimize
  exact shrinkBuf_id _

/-- `storeSegment` never changes the generation id. -/
lemma storeSegment_id (s : Mgr) (len : Nat) :
    (storeSegment s len).1.id = s.id := by
  unfold storeSegment
  split
  · rfl
  · dsimp only []
    split <;> rfl

/-- `newCell` never changes the generation id. -/
lemma newCell_id (s : Mgr) (a b c : Nat) : (newCell s a b c).1.id = s.id :=
  rfl

/-- The `add` walk never changes the generation id. -/
lemma addLoop_id :
    ∀ (fuel icell k : Nat) (s t : Mgr) (r : Nat),
      addLoop s icell k fuel = some (r, t) → t.id = s.id := by
  intro fuel
  induction fuel with
  | zero => intro icell k s t r h; exact absurd h (by simp [addLoop])
  | succ n ih =>
    intro icell k s t r h
    rw [addLoop] at h
    dsimp only [] at h
    split at h
    · exact ih _ _ _ _ _ h
    · split at h
      · split at h
        · exact ih _ _ _ _ _ h
        · cases h
          rw [newCell_id, storeSegment_id]
      · split at h
        · split at h
          · split at h
            · exact ih _ _ _ _ _ h
            · cases h
              rw [newCell_id, storeSegment_id, newCell_id]
          · split at h
            · cases h; rfl
            · cases h
              rw [newCell_id]
        · split at h
          · cases h
            rw [newCell_id, storeSegment_id, newCell_id]
          · cases h
            rw [newCell_id, newCell_id]

/-- `add` never changes the generation id. -/
lemma add_id (s : Mgr) (iroot fuel r : Nat) (t : Mgr)
    (h : add s iroot fuel = some (r, t)) : t.id = s.id := by
  rw [add] at h
  dsimp only [] at h
  split at h
  · cases h; rfl
  · split at h
    · cases h
      rw [storeSegment_id, growBuf_id]
    · rw [addLoop_id _ _ _ _ _ _ h, growBuf_id]

/-- `create` never changes the generation id. -/
lemma create_id (s : Mgr) : (create s).1.id = s.id :=
  rfl

/-- Every id-preserving evolution indeed preserves the id. -/
lemma Evolves.id_eq {s t : Mgr} (h : Evolves s t) : t.id = s.id := by
  induction h with
  | refl => rfl
  | needleStep t h hrec ih => rw [setNeedle_id]; exact ih
  | addStep t t2 iroot fuel r hrec hadd ih =>
    rw [add_id _ _ _ _ _ hadd]; exact ih
  | createStep t hrec ih => rw [create_id]; exact ih
  | optimizeStep t hrec ih => rw [optimize_id]; exact ih

/-- C10: a reference records the manager generation id at creation
(`mkRef`), a completed `reset` increments that id, and every other
operation preserves it; hence a reference created before a reset is
invalid at every later state, while a reference created right after the
reset stays valid as long as no further reset occurs. -/
theorem c10_reset_invalidates_refs (s1 s2 s3 s4 : Mgr) (i j : Nat)
    (h12 : Evolves s1 s2) (hr : reset s2 = some s3) (h34 : Evolves s3 s4) :
    s3.id = s2.id + 1 ∧
      (mkRef s1 i).isValid s4 = false ∧
      (mkRef s3 j).isValid s4 = true := by
  have hid3 : s3.id = s2.id + 1 := by
    unfold reset at hr
    split at hr
    · cases hr
    · cases hr; rfl
  have h4 : s4.id = s3.id := h34.id_eq
  have h2 : s2.id = s1.id := h12.id_eq
  refine ⟨hid3, ?_, ?_⟩
  · show ((mkRef s1 i).id == s4.id) = false
    have : s4.id ≠ (mkRef s1 i).id := by
      show s4.id ≠ s1.id
      rw [h4, hid3, h2]
      exact Nat.succ_ne_self s1.id
    simp [mkRef]
    omega
  · show ((mkRef s3 j).id == s4.id) = true
    simp [mkRef, h4]

/-- Witness for C10: concrete run from the initial manager, with the
reset applied immediately (`reset mgrInit = some mgrReset`). -/
theorem c10_reset_invalidates_refs_witness :
    mgrReset.id = mgrInit.id + 1 ∧
      (mkRef mgrInit 64).isValid mgrReset = false ∧
      (mkRef mgrReset 64).isValid mgrReset = true :=
  c10_reset_invalidates_refs mgrInit mgrInit mgrReset mgrReset 64 64
    (Evolves.refl mgrInit) (by decide) (Evolves.refl mgrReset)

/-! ### Abstract-chain lemmas -/

/-- `lcpLen` on an empty left list. -/
lemma lcpLen_nil_left (b : List Nat) : lcpLen [] b = 0 := by
  cases b <;> rfl

/-- `lcpLen` on an empty right list. -/
lemma lcpLen_nil_right (a : List Nat) : lcpLen a [] = 0 := by
  cases a <;> rfl

/-- `lcpLen` on two nonempty lists. -/
lemma lcpLen_cons (x : Nat) (xs : List Nat) (y : Nat) (ys : List Nat) :
    lcpLen (x :: xs) (y :: ys) = if x = y then lcpLen xs ys + 1 else 0 :=
  rfl

/-- The longest common prefix is no longer than the left list. -/
lemma lcpLen_le_left : ∀ (a b : List Nat), lcpLen a b ≤ a.length := by
  intro a
  induction a with
  | nil => intro b; simp [lcpLen_nil_left]
  | cons x xs ih =>
    intro b
    cases b with
    | nil => simp [lcpLen_nil_right]
    | cons y ys =>
      rw [lcpLen_cons]
      split
      · simpa using ih ys
      · simp

/-- The longest common prefix is no longer than the right list. -/
lemma lcpLen_le_right : ∀ (a b : List Nat), lcpLen a b ≤ b.length := by
  intro a
  induction a with
  | nil => intro b; simp [lcpLen_nil_left]
  | cons x xs ih =>
    intro b
    cases b with
    | nil => simp [lcpLen_nil_right]
    | cons y ys =>
      rw [lcpLen_cons]
      split
      · simpa using ih ys
      · simp

/-- A list shares its full length with itself. -/
lemma lcpLen_self : ∀ (a : List Nat), lcpLen a a = a.length := by
  intro a
  induction a with
  | nil => rfl
  | cons x xs ih => rw [lcpLen_cons]; simp [ih]

/-- Truncating the left list caps the common prefix. -/
lemma lcpLen_take :
    ∀ (a b : List Nat) (m : Nat),
      lcpLen (a.take m) b = min m (lcpLen a b) := by
  intro a
  induction a with
  | nil => intro b m; simp [lcpLen_nil_left]
  | cons x xs ih =>
    intro b m
    cases m with
    | zero => simp [lcpLen_nil_left]
    | succ n =>
      cases b with
      | nil => simp [lcpLen_nil_right]
      | cons y ys =>
        rw [List.take_succ_cons, lcpLen_cons, lcpLen_cons]
        split
        · rw [ih ys n]; omega
        · simp

/-- Dropping a shared prefix subtracts from the common prefix length. -/
lemma lcpLen_drop :
    ∀ (a b : List Nat) (m : Nat), m ≤ lcpLen a b →
      lcpLen (a.drop m) (b.drop m) = lcpLen a b - m := by
  intro a
  induction a with
  | nil => intro b m h; rw [lcpLen_nil_left] at h; interval_cases m; simp [lcpLen_nil_left]
  | cons x xs ih =>
    intro b m h
    cases b with
    | nil =>
      rw [lcpLen_nil_right] at h
      interval_cases m
      simp [lcpLen_nil_right]
    | cons y ys =>
      cases m with
      | zero => simp
      | succ n =>
        rw [lcpLen_cons] at h ⊢
        split at h
        · rename_i heq
          rw [List.drop_succ_cons, List.drop_succ_cons, if_pos heq,
            ih ys n (by omega)]
          omega
        · omega

/-- A full-length common prefix makes the left list a prefix of the
right one. -/
lemma lcpLen_full_prefix :
    ∀ (a b : List Nat), lcpLen a b = a.length → a <+: b := by
  intro a
  induction a with
  | nil => intro b _; exact List.nil_prefix
  | cons x xs ih =>
    intro b h
    cases b with
    | nil => rw [lcpLen_nil_right] at h; simp at h
    | cons y ys =>
      rw [lcpLen_cons] at h
      split at h
      · rename_i heq
        subst heq
        simp only [List.length_cons] at h
        exact List.cons_prefix_cons.mpr ⟨rfl, ih ys (by omega)⟩
      · simp at h

/-- Only a no-change, nothing-added walk result reports `false`. -/
lemma addA_false_eq :
    ∀ (t : TCh) (rh : List Nat) (t2 : TCh),
      addA rh t = (t2, false) → t2 = t := by
  intro t
  induction t with
  | nil =>
    intro rh t2 h
    rw [addA] at h
    simp at h
  | cell seg ends next alt ihn iha =>
    intro rh t2 h
    rw [addA] at h
    dsimp only [] at h
    split at h
    · rw [Prod.mk.injEq] at h
      obtain ⟨h1, h2⟩ := h
      rw [iha rh (addA rh alt).1 (Prod.ext rfl h2)] at h1
      exact h1.symm
    · split at h
      · split at h
        · split at h
          · rw [Prod.mk.injEq] at h
            exact h.1.symm
          · simp at h
        · split at h
          · simp at h
          · rw [Prod.mk.injEq] at h
            obtain ⟨h1, h2⟩ := h
            rw [ihn _ (addA (rh.drop (lcpLen seg rh)) next).1
              (Prod.ext rfl h2)] at h1
            exact h1.symm
      · split at h <;> simp at h

/-- The walk never produces an empty chain. -/
lemma addA_ne_nil (rh : List Nat) (t : TCh) : (addA rh t).1 ≠ TCh.nil := by
  cases t with
  | nil => rw [addA]; simp
  | cell seg ends next alt =>
    rw [addA]
    dsimp only []
    split
    · simp
    · split
      · split
        · split <;> simp
        · split <;> simp
      · split <;> simp

/-- A single fresh cell contains exactly its own segment. -/
lemma contains_single (rh : List Nat) (hne : rh ≠ []) :
    containsA rh (.cell rh true .nil .nil) := by
  unfold containsA
  rw [addA]
  dsimp only []
  rw [if_neg (by rw [lcpLen_self]; simpa using hne),
    if_pos (lcpLen_self rh), if_pos (by rw [lcpLen_self, List.drop_length])]
  rfl

/-- After inserting `rh`, the chain contains `rh`. -/
lemma addA_contains :
    ∀ (t : TCh) (rh : List Nat), rh ≠ [] → containsA rh (addA rh t).1 := by
  intro t
  induction t with
  | nil =>
    intro rh hne
    rw [addA]
    exact contains_single rh hne
  | cell seg ends next alt ihn iha =>
    intro rh hne
    unfold containsA
    rw [addA]
    dsimp only []
    split
    · -- first byte differs: walk goes to the alternatives
      rename_i hm0
      rw [addA]
      dsimp only []
      rw [if_pos hm0]
      have := iha rh hne
      unfold containsA at this
      rw [this]
    · split
      · rename_i hm0 hmfull
        split
        · rename_i hrest
          split
          · rename_i hends
            rw [addA]
            dsimp only []
            rw [if_neg hm0, if_pos hmfull, if_pos hrest, if_pos hends]
          · rw [addA]
            dsimp only []
            rw [if_neg hm0, if_pos hmfull, if_pos hrest]
            simp
        · rename_i hrest
          split
          · -- next = nil: boundary cell plus remainder cell appended
            rw [addA]
            dsimp only []
            rw [if_neg hm0, if_pos hmfull, if_neg hrest,
              if_neg (by simp)]
            have := contains_single (rh.drop (lcpLen seg rh)) hrest
            unfold containsA at this
            rw [this]
          · -- next nonempty: recurse
            rename_i hnnil
            rw [addA]
            dsimp only []
            rw [if_neg hm0, if_pos hmfull, if_neg hrest,
              if_neg (addA_ne_nil _ _)]
            have := ihn (rh.drop (lcpLen seg rh)) hrest
            unfold containsA at this
            rw [this]
      · -- split the current cell
        rename_i hm0 hmfull
        have hmle : lcpLen seg rh ≤ seg.length := lcpLen_le_left seg rh
        have hmlt : lcpLen seg rh < seg.length :=
          lt_of_le_of_ne hmle hmfull
        have htake : (seg.take (lcpLen seg rh)).length = lcpLen seg rh :=
          List.length_take_of_le hmle
        have hlcp2 : lcpLen (seg.take (lcpLen seg rh)) rh =
            lcpLen seg rh := by
          rw [lcpLen_take]; omega
        split
        · rename_i hrest
          rw [addA]
          dsimp only []
          rw [if_neg (by rw [hlcp2]; exact hm0), if_pos (by rw [hlcp2, htake]),
            if_pos (by rw [hlcp2]; exact hrest)]
          simp
        · rename_i hrest
          rw [addA]
          dsimp only []
          rw [if_neg (by rw [hlcp2]; exact hm0), if_pos (by rw [hlcp2, htake]),
            if_neg (by rw [hlcp2]; exact hrest), if_neg (by simp), hlcp2]
          rw [addA]
          dsimp only []
          have hdrop0 : lcpLen (seg.drop (lcpLen seg rh))
              (rh.drop (lcpLen seg rh)) = 0 := by
            rw [lcpLen_drop seg rh _ (le_refl _)]
            omega
          rw [if_pos hdrop0]
          have := contains_single (rh.drop (lcpLen seg rh)) hrest
          unfold containsA at this
          rw [this]

/-- Insertion preserves well-formedness of chains. -/
lemma addA_wf :
    ∀ (t : TCh) (rh : List Nat), rh ≠ [] → wfT t → wfT (addA rh t).1 := by
  intro t
  induction t with
  | nil =>
    intro rh hne _
    rw [addA]
    exact ⟨hne, fun _ => rfl, trivial, trivial⟩
  | cell seg ends next alt ihn iha =>
    intro rh hne hwf
    obtain ⟨hseg, himp, hwn, hwa⟩ := hwf
    rw [addA]
    dsimp only []
    split
    · exact ⟨hseg, himp, hwn, iha rh hne hwa⟩
    · split
      · split
        · split
          · exact ⟨hseg, himp, hwn, hwa⟩
          · exact ⟨hseg, fun _ => rfl, hwn, hwa⟩
        · rename_i hrest
          split
          · exact ⟨hseg, by simp, ⟨hrest, fun _ => rfl, trivial, trivial⟩, hwa⟩
          · exact ⟨hseg, fun hn => absurd hn (addA_ne_nil _ _),
              ihn _ hrest hwn, hwa⟩
      · rename_i hm0 hmfull
        have hmlt : lcpLen seg rh < seg.length :=
          lt_of_le_of_ne (lcpLen_le_left seg rh) hmfull
        have hslen : 0 < seg.length := List.length_pos.mpr hseg
        have htke : seg.take (lcpLen seg rh) ≠ [] := by
          intro hnil
          have h2 := congrArg List.length hnil
          simp only [List.length_take, List.length_nil] at h2
          omega
        have hdrp : seg.drop (lcpLen seg rh) ≠ [] := by
          intro hnil
          rw [List.drop_eq_nil_iff] at hnil
          omega
        split
        · rename_i hrest
          exact ⟨htke, fun _ => rfl, ⟨hdrp, himp, hwn, trivial⟩, hwa⟩
        · rename_i hrest
          exact ⟨htke, by simp, ⟨hdrp, himp, hwn,
            ⟨hrest, fun _ => rfl, trivial, trivial⟩⟩, hwa⟩

/-- Introduction: containment through the alternatives. -/
lemma containsA_cell_alt {rh seg : List Nat} {ends : Bool} {next alt : TCh}
    (hm : lcpLen seg rh = 0) (h : containsA rh alt) :
    containsA rh (.cell seg ends next alt) := by
  unfold containsA at h ⊢
  rw [addA]
  dsimp only []
  rw [if_pos hm, h]

/-- Introduction: containment ending exactly at this cell. -/
lemma containsA_cell_ends {rh seg : List Nat} {next alt : TCh}
    (hm : lcpLen seg rh = seg.length) (hm0 : lcpLen seg rh ≠ 0)
    (hr : rh.drop seg.length = []) :
    containsA rh (.cell seg true next alt) := by
  unfold containsA
  rw [addA]
  dsimp only []
  rw [if_neg hm0, if_pos hm, if_pos (hm ▸ hr), if_pos rfl]

/-- Introduction: containment continuing into the next chain. -/
lemma containsA_cell_next {rh seg : List Nat} {ends : Bool} {next alt : TCh}
    (hm : lcpLen seg rh = seg.length) (hm0 : lcpLen seg rh ≠ 0)
    (hr : rh.drop seg.length ≠ []) (hnn : next ≠ .nil)
    (h : containsA (rh.drop seg.length) next) :
    containsA rh (.cell seg ends next alt) := by
  unfold containsA at h ⊢
  rw [addA]
  dsimp only []
  rw [if_neg hm0, if_pos hm, if_neg (hm ▸ hr), if_neg hnn, hm, h]

/-- Inversion: the three ways a cell chain can contain `rh`. -/
lemma containsA_cell_cases {rh seg : List Nat} {ends : Bool} {next alt : TCh}
    (h : containsA rh (.cell seg ends next alt)) :
    (lcpLen seg rh = 0 ∧ containsA rh alt) ∨
    (lcpLen seg rh = seg.length ∧ lcpLen seg rh ≠ 0 ∧
      rh.drop seg.length = [] ∧ ends = true) ∨
    (lcpLen seg rh = seg.length ∧ lcpLen seg rh ≠ 0 ∧
      rh.drop seg.length ≠ [] ∧ next ≠ .nil ∧
      containsA (rh.drop seg.length) next) := by
  unfold containsA at h
  rw [addA] at h
  dsimp only [] at h
  split at h
  · rename_i hm
    rw [Prod.mk.injEq, TCh.cell.injEq] at h
    obtain ⟨⟨_, _, _, h1⟩, h2⟩ := h
    left
    refine ⟨hm, ?_⟩
    unfold containsA
    exact Prod.ext h1 h2
  · split at h
    · rename_i hm0 hm
      split at h
      · split at h
        · rename_i hrest hends
          right; left
          exact ⟨hm, hm0, hm ▸ hrest, hends⟩
        · simp at h
      · split at h
        · simp at h
        · rename_i hrest hnn
          rw [Prod.mk.injEq, TCh.cell.injEq] at h
          obtain ⟨⟨_, _, h1, _⟩, h2⟩ := h
          right; right
          refine ⟨hm, hm0, hm ▸ hrest, hnn, ?_⟩
          unfold containsA
          rw [hm] at h1 h2
          exact Prod.ext h1 h2
    · split at h <;> simp at h

/-- Stability: inserting any further hostname preserves containment. -/
lemma addA_stable :
    ∀ (t : TCh) (rh g : List Nat), wfT t → containsA rh t →
      containsA rh (addA g t).1 := by
  intro t
  induction t with
  | nil =>
    intro rh g _ hc
    unfold containsA at hc
    rw [addA] at hc
    simp at hc
  | cell seg ends next alt ihn iha =>
    intro rh g hwf hc
    obtain ⟨hseg, himp, hwn, hwa⟩ := hwf
    rw [addA]
    dsimp only []
    split
    · -- g diverges at the first byte: only the alternatives change
      rcases containsA_cell_cases hc with ⟨hm0, hca⟩ |
        ⟨hmf, hmne, hrest, hends⟩ | ⟨hmf, hmne, hrest, hnn, hcn⟩
      · exact containsA_cell_alt hm0 (iha rh g hwa hca)
      · subst hends
        exact containsA_cell_ends hmf hmne hrest
      · exact containsA_cell_next hmf hmne hrest hnn hcn
    · split
      · -- g consumes this whole segment
        split
        · -- g ends here
          split
          · exact hc
          · rename_i hgends
            rcases containsA_cell_cases hc with ⟨hm0, hca⟩ |
              ⟨hmf, hmne, hrest, hends⟩ | ⟨hmf, hmne, hrest, hnn, hcn⟩
            · exact containsA_cell_alt hm0 hca
            · exact absurd hends hgends
            · exact containsA_cell_next hmf hmne hrest hnn hcn
        · split
          · -- g continues but there was no continuation: boundary + cell
            rename_i hgrest hnil
            rcases containsA_cell_cases hc with ⟨hm0, hca⟩ |
              ⟨hmf, hmne, hrest, hends⟩ | ⟨hmf, hmne, hrest, hnn, hcn⟩
            · exact containsA_cell_alt hm0 hca
            · subst hends
              exact containsA_cell_ends hmf hmne hrest
            · exact absurd hnil hnn
          · -- g continues into the existing continuation
            rcases containsA_cell_cases hc with ⟨hm0, hca⟩ |
              ⟨hmf, hmne, hrest, hends⟩ | ⟨hmf, hmne, hrest, hnn, hcn⟩
            · exact containsA_cell_alt hm0 hca
            · subst hends
              exact containsA_cell_ends hmf hmne hrest
            · exact containsA_cell_next hmf hmne hrest (addA_ne_nil _ _)
                (ihn _ _ hwn hcn)
      · -- g splits this cell
        rename_i hg0 hgf
        have hglt : lcpLen seg g < seg.length :=
          lt_of_le_of_ne (lcpLen_le_left seg g) hgf
        have htklen : (seg.take (lcpLen seg g)).length = lcpLen seg g :=
          List.length_take_of_le (le_of_lt hglt)
        have hdblen : (seg.drop (lcpLen seg g)).length =
            seg.length - lcpLen seg g := List.length_drop _ _
        split
        all_goals (rcases containsA_cell_cases hc with ⟨hm0, hca⟩ |
          ⟨hmf, hmne, hrest, hends⟩ | ⟨hmf, hmne, hrest, hnn, hcn⟩)
        · -- g ends at the split point; rh takes the alternatives
          exact containsA_cell_alt (by rw [lcpLen_take, hm0]; simp) hca
        · -- g ends at the split point; rh ends at the old cell
          subst hends
          refine containsA_cell_next (by rw [lcpLen_take, htklen]; omega)
            (by rw [lcpLen_take]; omega)
            (by
              intro hnil
              rw [htklen, List.drop_eq_nil_iff] at hnil
              have := lcpLen_le_right seg rh
              omega)
            (by simp) ?_
          rw [htklen]
          refine containsA_cell_ends ?_ ?_ ?_
          · rw [lcpLen_drop seg rh _ (by omega), hdblen, hmf]
          · rw [lcpLen_drop seg rh _ (by omega)]; omega
          · rw [hdblen, List.drop_drop]
            have h1 : lcpLen seg g + (seg.length - lcpLen seg g) =
                seg.length := by omega
            rw [h1]
            exact hrest
        · -- g ends at the split point; rh continues past the old cell
          refine containsA_cell_next (by rw [lcpLen_take, htklen]; omega)
            (by rw [lcpLen_take]; omega)
            (by
              intro hnil
              rw [htklen, List.drop_eq_nil_iff] at hnil
              have := lcpLen_le_right seg rh
              omega)
            (by simp) ?_
          rw [htklen]
          refine containsA_cell_next ?_ ?_ ?_ hnn ?_
          · rw [lcpLen_drop seg rh _ (by omega), hdblen, hmf]
          · rw [lcpLen_drop seg rh _ (by omega)]; omega
          · rw [hdblen, List.drop_drop]
            have h1 : lcpLen seg g + (seg.length - lcpLen seg g) =
                seg.length := by omega
            rw [h1]
            exact hrest
          · rw [hdblen, List.drop_drop]
            have h1 : lcpLen seg g + (seg.length - lcpLen seg g) =
                seg.length := by omega
            rw [h1]
            exact hcn
        · -- g forks below the split point; rh takes the alternatives
          exact containsA_cell_alt (by rw [lcpLen_take, hm0]; simp) hca
        · -- g forks below the split point; rh ends at the old cell
          subst hends
          refine containsA_cell_next (by rw [lcpLen_take, htklen]; omega)
            (by rw [lcpLen_take]; omega)
            (by
              intro hnil
              rw [htklen, List.drop_eq_nil_iff] at hnil
              have := lcpLen_le_right seg rh
              omega)
            (by simp) ?_
          rw [htklen]
          refine containsA_cell_ends ?_ ?_ ?_
          · rw [lcpLen_drop seg rh _ (by omega), hdblen, hmf]
          · rw [lcpLen_drop seg rh _ (by omega)]; omega
          · rw [hdblen, List.drop_drop]
            have h1 : lcpLen seg g + (seg.length - lcpLen seg g) =
                seg.length := by omega
            rw [h1]
            exact hrest
        · -- g forks below the split point; rh continues past the old cell
          refine containsA_cell_next (by rw [lcpLen_take, htklen]; omega)
            (by rw [lcpLen_take]; omega)
            (by
              intro hnil
              rw [htklen, List.drop_eq_nil_iff] at hnil
              have := lcpLen_le_right seg rh
              omega)
            (by simp) ?_
          rw [htklen]
          refine containsA_cell_next ?_ ?_ ?_ hnn ?_
          · rw [lcpLen_drop seg rh _ (by omega), hdblen, hmf]
          · rw [lcpLen_drop seg rh _ (by omega)]; omega
          · rw [hdblen, List.drop_drop]
            have h1 : lcpLen seg g + (seg.length - lcpLen seg g) =
                seg.length := by omega
            rw [h1]
            exact hrest
          · rw [hdblen, List.drop_drop]
            have h1 : lcpLen seg g + (seg.length - lcpLen seg g) =
                seg.length := by omega
            rw [h1]
            exact hcn


/-! ### Byte-store and word lemmas for the refinement proof -/

/-- Every byte read is below 256. -/
lemma Buf.rd_lt (b : Buf) (j : Nat) : b.rd j < 256 := by
  induction b generalizing j with
  | zeros => simp [Buf.rd]
  | write b i v ih =>
    simp only [Buf.rd]
    split
    · exact Nat.mod_lt _ (by omega)
    · exact ih j
  | moved b t c0 c1 d ih =>
    simp only [Buf.rd]
    split
    · exact ih _
    · split
      · exact ih _
      · omega

/-- Reading the byte just written. -/
lemma rd_wr8_eq (b : Buf) (i v : Nat) : (wr8 b i v).rd i = v % 256 := by
  simp [wr8, Buf.rd]

/-- Reading another byte after a byte write. -/
lemma rd_wr8_ne (b : Buf) {i j : Nat} (v : Nat) (h : j ≠ i) :
    (wr8 b i v).rd j = b.rd j := by
  simp [wr8, Buf.rd, h]

/-- Every 32-bit word read is below 2^32. -/
lemma rd32_lt (f : Buf) (i : Nat) : rd32 f i < 4294967296 := by
  have h0 := Buf.rd_lt f (4 * i)
  have h1 := Buf.rd_lt f (4 * i + 1)
  have h2 := Buf.rd_lt f (4 * i + 2)
  have h3 := Buf.rd_lt f (4 * i + 3)
  simp only [rd32]
  omega

/-- A 32-bit write leaves bytes outside its 4-byte range unchanged. -/
lemma rd_wr32_out (f : Buf) {i : Nat} (v : Nat) {j : Nat}
    (h : j < 4 * i ∨ 4 * i + 4 ≤ j) : (wr32 f i v).rd j = f.rd j := by
  simp only [wr32]
  rw [rd_wr8_ne _ _ (by omega), rd_wr8_ne _ _ (by omega),
    rd_wr8_ne _ _ (by omega), rd_wr8_ne _ _ (by omega)]

/-- Reading back a written 32-bit word. -/
lemma rd32_wr32_eq (f : Buf) (i v : Nat) (hv : v < 4294967296) :
    rd32 (wr32 f i v) i = v := by
  simp only [rd32, wr32]
  rw [rd_wr8_ne _ _ (by omega), rd_wr8_ne _ _ (by omega),
    rd_wr8_ne _ _ (by omega), rd_wr8_eq]
  rw [rd_wr8_ne _ _ (by omega), rd_wr8_ne _ _ (by omega), rd_wr8_eq]
  rw [rd_wr8_ne _ _ (by omega), rd_wr8_eq]
  rw [rd_wr8_eq]
  omega

/-- A 32-bit write leaves every other word unchanged. -/
lemma rd32_wr32_ne (f : Buf) {i j : Nat} (v : Nat) (h : i ≠ j) :
    rd32 (wr32 f i v) j = rd32 f j := by
  simp only [rd32]
  rw [rd_wr32_out f v (by omega), rd_wr32_out f v (by omega),
    rd_wr32_out f v (by omega), rd_wr32_out f v (by omega)]

/-! ### Pool and needle reading lemmas -/

/-- Element lookup in a mapped range. -/
lemma getD_map_range (f : Nat → Nat) (n i : Nat) (h : i < n) :
    ((List.range n).map f).getD i 0 = f i := by
  rw [List.getD_eq_getElem _ _ (by simp [h])]
  simp

/-- Length of a pool segment view. -/
lemma readSeg_length (s : Mgr) (off len : Nat) :
    (readSeg s off len).length = len := by
  simp [readSeg]

/-- Bytes of a pool segment view. -/
lemma readSeg_getD (s : Mgr) (off len i : Nat) (h : i < len) :
    (readSeg s off len).getD i 0 = s.buf.rd (s.char0 + off + i) :=
  getD_map_range _ len i h

/-- Length of the reversed-needle view. -/
lemma readNdl_length (s : Mgr) (k : Nat) : (readNdl s k).length = k := by
  simp [readNdl]

/-- Bytes of the reversed-needle view. -/
lemma readNdl_getD (s : Mgr) (k i : Nat) (h : i < k) :
    (readNdl s k).getD i 0 = s.buf.rd (k - 1 - i) :=
  getD_map_range _ k i h

/-- Taking a prefix of a mapped range. -/
lemma map_range_take (f : Nat → Nat) (n m : Nat) (h : m ≤ n) :
    ((List.range n).map f).take m = (List.range m).map f := by
  rw [← List.map_take, List.take_range, Nat.min_eq_left h]

/-- Dropping a prefix of a mapped range. -/
lemma map_range_drop (f : Nat → Nat) (n m : Nat) :
    ((List.range n).map f).drop m =
      (List.range (n - m)).map fun i => f (m + i) := by
  apply List.ext_getElem
  · simp
  · intro i h1 h2
    simp

/-- A prefix of a pool segment view. -/
lemma readSeg_take (s : Mgr) (off len m : Nat) (h : m ≤ len) :
    (readSeg s off len).take m = readSeg s off m :=
  map_range_take _ len m h

/-- A suffix of a pool segment view starts deeper in the pool. -/
lemma readSeg_drop (s : Mgr) (off len m : Nat) :
    (readSeg s off len).drop m = readSeg s (off + m) (len - m) := by
  rw [readSeg, map_range_drop, readSeg]
  apply List.map_congr_left
  intro i _
  congr 1
  omega

/-- Consuming reversed-needle characters shortens the view. -/
lemma readNdl_drop (s : Mgr) (k m : Nat) (h : m ≤ k) :
    (readNdl s k).drop m = readNdl s (k - m) := by
  rw [readNdl, map_range_drop, readNdl]
  apply List.map_congr_left
  intro i hi
  rw [List.mem_range] at hi
  congr 1
  omega

/-! ### Structural lemmas about the refinement relation -/

/-- Only index 0 represents the empty chain. -/
lemma Rep.nil_inv {s : Mgr} {x : Nat} {fp : List Nat}
    (h : Rep s x TCh.nil fp) : x = 0 ∧ fp = [] := by
  cases h
  exact ⟨rfl, rfl⟩

/-- A represented node sits at a nonzero index and is a live cell. -/
lemma Rep.cell_inv {s : Mgr} {x : Nat} {seg : List Nat} {e : Bool}
    {n a : TCh} {fp : List Nat} (h : Rep s x (TCh.cell seg e n a) fp) :
    x ≠ 0 ∧ ∃ off, CellOk s x off seg := by
  cases h with
  | stop _ off _ _ _ hc _ _ _ => exact ⟨hc.1, off, hc⟩
  | bdry _ off _ _ _ _ _ _ hc _ _ _ _ _ _ _ _ _ _ _ => exact ⟨hc.1, off, hc⟩
  | go _ off _ _ _ _ _ hc _ _ _ _ _ _ => exact ⟨hc.1, off, hc⟩

/-- The chain at a nonzero index is a node. -/
lemma Rep.ne_nil {s : Mgr} {x : Nat} {t : TCh} {fp : List Nat}
    (h : Rep s x t fp) (hx : x ≠ 0) : t ≠ TCh.nil := by
  intro he
  subst he
  exact hx (Rep.nil_inv h).1

/-- The chain at index 0 is empty. -/
lemma Rep.eq_nil {s : Mgr} {t : TCh} {fp : List Nat}
    (h : Rep s 0 t fp) : t = TCh.nil := by
  cases h with
  | nil => rfl
  | stop _ off _ _ _ hc _ _ _ => exact absurd rfl hc.1
  | bdry _ off _ _ _ _ _ _ hc _ _ _ _ _ _ _ _ _ _ _ => exact absurd rfl hc.1
  | go _ off _ _ _ _ _ hc _ _ _ _ _ _ => exact absurd rfl hc.1

/-- Every footprint entry is an allocated cell index. -/
lemma Rep.fp_cells {s : Mgr} {x : Nat} {t : TCh} {fp : List Nat}
    (h : Rep s x t fp) :
    ∀ c ∈ fp, c ≠ 0 ∧ c % 3 = 1 ∧ 256 ≤ 4 * c ∧ 4 * c + 12 ≤ s.trie1 := by
  induction h with
  | nil => intro c hc; simp at hc
  | stop icell off seg alt fpA hc hr ha hni ih =>
    intro c hcm
    rcases List.mem_cons.mp hcm with rfl | hcm
    · exact ⟨hc.1, hc.2.1, hc.2.2.1, hc.2.2.2.1⟩
    · exact ih c hcm
  | bdry icell off b seg next alt fpN fpA hc hr hb hbr hn ha h1 h2 h3 h4 h5
      h6 ihn iha =>
    intro c hcm
    rcases List.mem_cons.mp hcm with rfl | hcm
    · exact ⟨hc.1, hc.2.1, hc.2.2.1, hc.2.2.2.1⟩
    rcases List.mem_cons.mp hcm with rfl | hcm
    · exact ⟨hb.1, hb.2.1, hb.2.2.1, hb.2.2.2.1⟩
    rcases List.mem_append.mp hcm with hcm | hcm
    · exact ihn c hcm
    · exact iha c hcm
  | go icell off seg next alt fpN fpA hc hr hn ha h1 h2 h3 ihn iha =>
    intro c hcm
    rcases List.mem_cons.mp hcm with rfl | hcm
    · exact ⟨hc.1, hc.2.1, hc.2.2.1, hc.2.2.2.1⟩
    rcases List.mem_append.mp hcm with hcm | hcm
    · exact ihn c hcm
    · exact iha c hcm

/-- A nonempty represented chain has its root in the footprint. -/
lemma Rep.root_mem {s : Mgr} {x : Nat} {t : TCh} {fp : List Nat}
    (h : Rep s x t fp) (hx : x ≠ 0) : x ∈ fp := by
  cases h with
  | nil => exact absurd rfl hx
  | stop _ off _ _ _ hc _ _ _ => exact List.mem_cons_self _ _
  | bdry _ off _ _ _ _ _ _ hc _ _ _ _ _ _ _ _ _ _ _ =>
    exact List.mem_cons_self _ _
  | go _ off _ _ _ _ _ hc _ _ _ _ _ _ => exact List.mem_cons_self _ _

/-- Every represented chain is well formed. -/
lemma Rep.wf {s : Mgr} {x : Nat} {t : TCh} {fp : List Nat}
    (h : Rep s x t fp) : wfT t := by
  induction h with
  | nil => trivial
  | stop icell off seg alt fpA hc hr ha hni ih =>
    exact ⟨hc.2.2.2.2.2.2.2.1, fun _ => rfl, trivial, ih⟩
  | bdry icell off b seg next alt fpN fpA hc hr hb hbr hn ha h1 h2 h3 h4 h5
      h6 ihn iha =>
    exact ⟨hc.2.2.2.2.2.2.2.1, fun _ => rfl, ihn, iha⟩
  | go icell off seg next alt fpN fpA hc hr hn ha h1 h2 h3 ihn iha =>
    refine ⟨hc.2.2.2.2.2.2.2.1, fun he => absurd he (Rep.ne_nil hn hr), ihn, iha⟩

/-! ### Frame lemmas: representation survives writes outside the
footprint.  The byte hypothesis `hbytes` allows a list `ex` of excepted
cell indices whose 12-byte ranges may have changed; since all cell
indices are 1 mod 3 their ranges are disjoint from those of the
footprint cells. -/

/-- Reading a word of an untouched cell in the new state. -/
lemma rd32_frame_cell {s s' : Mgr} (ex : List Nat) (icell k : Nat)
    (hbytes : ∀ j, 256 ≤ j → j < s.trie1 →
      (∀ c ∈ ex, j < 4 * c ∨ 4 * c + 12 ≤ j) → s'.buf.rd j = s.buf.rd j)
    (hmod : icell % 3 = 1) (hlb : 256 ≤ 4 * icell)
    (hub : 4 * icell + 12 ≤ s.trie1) (hk : k < 3)
    (hne : ∀ c ∈ ex, c ≠ icell ∧ c % 3 = 1) :
    rd32 s'.buf (icell + k) = rd32 s.buf (icell + k) := by
  have hb : ∀ j, 4 * icell ≤ j → j < 4 * icell + 12 →
      s'.buf.rd j = s.buf.rd j := by
    intro j hj1 hj2
    apply hbytes j (by omega) (by omega)
    intro c hcm
    obtain ⟨hc1, hc2⟩ := hne c hcm
    omega
  simp only [rd32]
  rw [hb _ (by omega) (by omega), hb _ (by omega) (by omega),
    hb _ (by omega) (by omega), hb _ (by omega) (by omega)]

/-- A live cell survives writes outside its range when the pool is
copied along (possibly relocated). -/
lemma cellOk_frame {s s' : Mgr} (ex : List Nat) {icell off : Nat}
    {seg : List Nat} (hc : CellOk s icell off seg)
    (hsz : s.char1 - s.char0 ≤ s'.char1 - s'.char0)
    (ht : s.trie1 ≤ s'.trie1)
    (hbytes : ∀ j, 256 ≤ j → j < s.trie1 →
      (∀ c ∈ ex, j < 4 * c ∨ 4 * c + 12 ≤ j) → s'.buf.rd j = s.buf.rd j)
    (hpool : ∀ j, j < s.char1 - s.char0 →
      s'.buf.rd (s'.char0 + j) = s.buf.rd (s.char0 + j))
    (hne : ∀ c ∈ ex, c ≠ icell ∧ c % 3 = 1) :
    CellOk s' icell off seg := by
  obtain ⟨h1, h2, h3, h4, h5, h6, h7, h8, h9, h10⟩ := hc
  refine ⟨h1, h2, h3, by omega, ?_, by omega, h7, h8, h9, ?_⟩
  · rw [rd32_frame_cell ex icell 2 hbytes h2 h3 h4 (by omega) hne]
    exact h5
  · have hrs : readSeg s' off seg.length = readSeg s off seg.length := by
      unfold readSeg
      apply List.map_congr_left
      intro i hi
      rw [List.mem_range] at hi
      rw [show s'.char0 + off + i = s'.char0 + (off + i) by omega,
        show s.char0 + off + i = s.char0 + (off + i) by omega]
      exact hpool (off + i) (by omega)
    rw [hrs]
    exact h10

/-- A boundary cell survives writes outside its range. -/
lemma bdryOk_frame {s s' : Mgr} (ex : List Nat) {b : Nat}
    (hb : BdryOk s b)
    (ht : s.trie1 ≤ s'.trie1)
    (hbytes : ∀ j, 256 ≤ j → j < s.trie1 →
      (∀ c ∈ ex, j < 4 * c ∨ 4 * c + 12 ≤ j) → s'.buf.rd j = s.buf.rd j)
    (hne : ∀ c ∈ ex, c ≠ b ∧ c % 3 = 1) :
    BdryOk s' b := by
  obtain ⟨h1, h2, h3, h4, h5⟩ := hb
  refine ⟨h1, h2, h3, by omega, ?_⟩
  rw [rd32_frame_cell ex b 2 hbytes h2 h3 h4 (by omega) hne]
  exact h5

/-- The frame lemma: a represented chain survives a state change that
preserves its cells\u2019 bytes and the pool contents. -/
lemma rep_frame {s s' : Mgr} (ex : List Nat) {icell : Nat} {t : TCh}
    {fp : List Nat} (h : Rep s icell t fp)
    (hsz : s.char1 - s.char0 ≤ s'.char1 - s'.char0)
    (ht : s.trie1 ≤ s'.trie1)
    (hbytes : ∀ j, 256 ≤ j → j < s.trie1 →
      (∀ c ∈ ex, j < 4 * c ∨ 4 * c + 12 ≤ j) → s'.buf.rd j = s.buf.rd j)
    (hpool : ∀ j, j < s.char1 - s.char0 →
      s'.buf.rd (s'.char0 + j) = s.buf.rd (s.char0 + j))
    (hex : ∀ c ∈ ex, c ∉ fp ∧ c % 3 = 1) :
    Rep s' icell t fp := by
  induction h with
  | nil => exact Rep.nil
  | stop icell off seg alt fpA hc hr ha hni ih =>
    have hne : ∀ c ∈ ex, c ≠ icell ∧ c % 3 = 1 := by
      intro c hcm
      obtain ⟨hnf, hm⟩ := hex c hcm
      exact ⟨fun he => hnf (he ▸ List.mem_cons_self _ _), hm⟩
    have hrw : ∀ k, k < 3 →
        rd32 s'.buf (icell + k) = rd32 s.buf (icell + k) := fun k hk =>
      rd32_frame_cell ex icell k hbytes hc.2.1 hc.2.2.1 hc.2.2.2.1 hk hne
    have h0 : rd32 s'.buf icell = rd32 s.buf icell := by
      have := hrw 0 (by omega)
      simpa using this
    refine Rep.stop icell off seg alt fpA
      (cellOk_frame ex hc hsz ht hbytes hpool hne) ?_ ?_ hni
    · rw [hrw 1 (by omega)]; exact hr
    · rw [h0]
      exact ih (fun c hcm => ⟨fun hf => (hex c hcm).1 (List.mem_cons_of_mem _ hf),
        (hex c hcm).2⟩)
  | bdry icell off b seg next alt fpN fpA hc hr hb hbr hn ha h1 h2 h3 h4 h5
      h6 ihn iha =>
    have hne : ∀ c ∈ ex, c ≠ icell ∧ c % 3 = 1 := by
      intro c hcm
      obtain ⟨hnf, hm⟩ := hex c hcm
      exact ⟨fun he => hnf (he ▸ List.mem_cons_self _ _), hm⟩
    have hneb : ∀ c ∈ ex, c ≠ b ∧ c % 3 = 1 := by
      intro c hcm
      obtain ⟨hnf, hm⟩ := hex c hcm
      refine ⟨fun he => hnf ?_, hm⟩
      subst he
      exact List.mem_cons_of_mem _ (List.mem_cons_self _ _)
    have hexN : ∀ c ∈ ex, c ∉ fpN ∧ c % 3 = 1 := by
      intro c hcm
      obtain ⟨hnf, hm⟩ := hex c hcm
      refine ⟨fun hf => hnf ?_, hm⟩
      exact List.mem_cons_of_mem _ (List.mem_cons_of_mem _
        (List.mem_append.mpr (Or.inl hf)))
    have hexA : ∀ c ∈ ex, c ∉ fpA ∧ c % 3 = 1 := by
      intro c hcm
      obtain ⟨hnf, hm⟩ := hex c hcm
      refine ⟨fun hf => hnf ?_, hm⟩
      exact List.mem_cons_of_mem _ (List.mem_cons_of_mem _
        (List.mem_append.mpr (Or.inr hf)))
    have hrw : ∀ k, k < 3 →
        rd32 s'.buf (icell + k) = rd32 s.buf (icell + k) := fun k hk =>
      rd32_frame_cell ex icell k hbytes hc.2.1 hc.2.2.1 hc.2.2.2.1 hk hne
    have hrwb : ∀ k, k < 3 →
        rd32 s'.buf (b + k) = rd32 s.buf (b + k) := fun k hk =>
      rd32_frame_cell ex b k hbytes hb.2.1 hb.2.2.1 hb.2.2.2.1 hk hneb
    have h0 : rd32 s'.buf icell = rd32 s.buf icell := by
      have := hrw 0 (by omega)
      simpa using this
    refine Rep.bdry icell off b seg next alt fpN fpA
      (cellOk_frame ex hc hsz ht hbytes hpool hne) ?_
      (bdryOk_frame ex hb ht hbytes hneb) ?_ ?_ ?_ h1 h2 h3 h4 h5 h6
    · rw [hrw 1 (by omega)]; exact hr
    · rw [hrwb 1 (by omega)]; exact hbr
    · rw [hrwb 1 (by omega)]; exact ihn hexN
    · rw [h0]; exact iha hexA
  | go icell off seg next alt fpN fpA hc hr hn ha h1 h2 h3 ihn iha =>
    have hne : ∀ c ∈ ex, c ≠ icell ∧ c % 3 = 1 := by
      intro c hcm
      obtain ⟨hnf, hm⟩ := hex c hcm
      exact ⟨fun he => hnf (he ▸ List.mem_cons_self _ _), hm⟩
    have hexN : ∀ c ∈ ex, c ∉ fpN ∧ c % 3 = 1 := by
      intro c hcm
      obtain ⟨hnf, hm⟩ := hex c hcm
      refine ⟨fun hf => hnf ?_, hm⟩
      exact List.mem_cons_of_mem _ (List.mem_append.mpr (Or.inl hf))
    have hexA : ∀ c ∈ ex, c ∉ fpA ∧ c % 3 = 1 := by
      intro c hcm
      obtain ⟨hnf, hm⟩ := hex c hcm
      refine ⟨fun hf => hnf ?_, hm⟩
      exact List.mem_cons_of_mem _ (List.mem_append.mpr (Or.inr hf))
    have hrw : ∀ k, k < 3 →
        rd32 s'.buf (icell + k) = rd32 s.buf (icell + k) := fun k hk =>
      rd32_frame_cell ex icell k hbytes hc.2.1 hc.2.2.1 hc.2.2.2.1 hk hne
    have h0 : rd32 s'.buf icell = rd32 s.buf icell := by
      have := hrw 0 (by omega)
      simpa using this
    refine Rep.go icell off seg next alt fpN fpA
      (cellOk_frame ex hc hsz ht hbytes hpool hne) ?_ ?_ ?_ h1 h2 h3
    · rw [hrw 1 (by omega)]; exact hr
    · rw [hrw 1 (by omega)]; exact ihn hexN
    · rw [h0]; exact iha hexA

/-! ### The mismatch scan computes a longest common prefix -/

/-- Truncating the right list caps the common prefix. -/
lemma lcpLen_take_right :
    ∀ (a b : List Nat) (m : Nat),
      lcpLen a (b.take m) = min m (lcpLen a b) := by
  intro a
  induction a with
  | nil => intro b m; simp [lcpLen_nil_left]
  | cons x xs ih =>
    intro b m
    cases m with
    | zero => simp [lcpLen_nil_right]
    | succ n =>
      cases b with
      | nil => simp [lcpLen_nil_right]
      | cons y ys =>
        rw [List.take_succ_cons, lcpLen_cons, lcpLen_cons]
        split
        · rw [ih ys n]; omega
        · simp

/-- The scan loop of `indexOfMismatch` advances by the common prefix
length of the two byte windows it compares. -/
lemma mismatchLoop_eq (s : Mgr) (i0 k : Nat) :
    ∀ (left i : Nat),
      mismatchLoop s i0 k i left =
        i + lcpLen ((List.range left).map fun d => s.buf.rd (i0 + i + d))
          ((List.range left).map fun d => s.buf.rd (k - 1 - i - d)) := by
  intro left
  induction left with
  | zero => intro i; simp [mismatchLoop, lcpLen]
  | succ n ih =>
    intro i
    rw [List.range_succ_eq_map, List.map_cons, List.map_cons,
      List.map_map, List.map_map, lcpLen_cons]
    simp only [Nat.add_zero, Nat.sub_zero]
    by_cases hc : s.buf.rd (i0 + i) = s.buf.rd (k - 1 - i)
    · rw [if_pos hc]
      have hA : (List.range n).map ((fun d => s.buf.rd (i0 + i + d)) ∘
          Nat.succ) = (List.range n).map fun d => s.buf.rd (i0 + (i + 1) + d) := by
        apply List.map_congr_left
        intro d _
        simp only [Function.comp]
        congr 1
        omega
      have hB : (List.range n).map ((fun d => s.buf.rd (k - 1 - i - d)) ∘
          Nat.succ) = (List.range n).map fun d =>
            s.buf.rd (k - 1 - (i + 1) - d) := by
        apply List.map_congr_left
        intro d _
        simp only [Function.comp]
        congr 1
        omega
      rw [hA, hB]
      show mismatchLoop s i0 k i (n + 1) = _
      rw [mismatchLoop, if_pos hc, ih (i + 1)]
      omega
    · rw [if_neg hc]
      show mismatchLoop s i0 k i (n + 1) = _
      rw [mismatchLoop, if_neg hc]
      omega

/-- `indexOfMismatch` on a packed segment word computes the common
prefix length of the stored segment and the reversed needle. -/
lemma indexOfMismatch_eq (s : Mgr) (off len k : Nat)
    (hoff : off < 16777216) :
    indexOfMismatch s (16777216 * len + off) k =
      lcpLen (readSeg s off len) (readNdl s k) := by
  have hdiv : (16777216 * len + off) / 16777216 = len := by omega
  have hmod : (16777216 * len + off) % 16777216 = off := by omega
  unfold indexOfMismatch
  rw [hdiv, hmod, mismatchLoop_eq s _ k (min len k) 0]
  have hA : (List.range (min len k)).map
      (fun d => s.buf.rd (s.char0 + off + 0 + d)) =
        (readSeg s off len).take (min len k) := by
    rw [readSeg, map_range_take _ len _ (by omega)]
    apply List.map_congr_left
    intro d _
    congr 1
  have hB : (List.range (min len k)).map
      (fun d => s.buf.rd (k - 1 - 0 - d)) =
        (readNdl s k).take (min len k) := by
    rw [readNdl, map_range_take _ k _ (by omega)]
    apply List.map_congr_left
    intro d _
    congr 1
  rw [hA, hB, lcpLen_take, lcpLen_take_right]
  have h1 := lcpLen_le_left (readSeg s off len) (readNdl s k)
  have h2 := lcpLen_le_right (readSeg s off len) (readNdl s k)
  rw [readSeg_length] at h1
  rw [readNdl_length] at h2
  omega

/-! ### Operation specifications: `setNeedle` -/

/-- Bytes written by the needle copy loop. -/
lemma setNeedleLoop_rd_lt (needle : List Nat) :
    ∀ (i : Nat) (f : Buf) (j : Nat), j < i →
      (setNeedleLoop needle f i).rd j = needle.getD j 0 % 256 := by
  intro i
  induction i with
  | zero => intro f j hj; omega
  | succ n ih =>
    intro f j hj
    rcases Nat.lt_or_ge j n with hn | hn
    · rw [setNeedleLoop, ih _ _ hn]
    · have hjn : j = n := by omega
      subst hjn
      rw [setNeedleLoop, setNeedleLoop_rd_of_le _ _ _ _ (le_refl j), rd_wr8_eq]

/-- `setNeedle` only changes the needle area (bytes 0..255). -/
lemma setNeedle_rd_hi (s : Mgr) (h : List Nat) :
    ∀ j, 256 ≤ j → (setNeedle s h).buf.rd j = s.buf.rd j := by
  intro j hj
  unfold setNeedle
  split
  · rfl
  · dsimp only []
    rw [setNeedleLoop_rd_of_le _ _ _ _ (by omega), rd_wr8_ne _ _ (by omega)]

/-- The region fields, buffer length, id and dedup map of `setNeedle`. -/
lemma setNeedle_fields (s : Mgr) (h : List Nat) :
    (setNeedle s h).trie0 = s.trie0 ∧ (setNeedle s h).trie1 = s.trie1 ∧
    (setNeedle s h).char0 = s.char0 ∧ (setNeedle s h).char1 = s.char1 ∧
    (setNeedle s h).bufLen = s.bufLen ∧
    (setNeedle s h).segments = s.segments ∧ (setNeedle s h).needle = h := by
  unfold setNeedle
  split
  · rename_i he
    exact ⟨rfl, rfl, rfl, rfl, rfl, rfl, he.symm⟩
  · exact ⟨rfl, rfl, rfl, rfl, rfl, rfl, rfl⟩

/-- After `setNeedle` the needle area agrees with the cached needle. -/
lemma setNeedle_ndlOk (s : Mgr) (h : List Nat) (hN : NdlOk s) :
    NdlOk (setNeedle s h) := by
  have hf7 : (setNeedle s h).needle = h := (setNeedle_fields s h).2.2.2.2.2.2
  by_cases he : h = s.needle
  · unfold setNeedle
    rw [if_pos he]
    exact hN
  · refine ⟨?_, ?_⟩
    · rw [hf7]
      unfold setNeedle
      rw [if_neg he]
      dsimp only []
      rw [setNeedleLoop_rd_of_le _ _ _ _ (by omega), rd_wr8_eq]
      omega
    · intro i hi
      rw [hf7] at hi ⊢
      unfold setNeedle
      rw [if_neg he]
      dsimp only []
      rw [setNeedleLoop_rd_lt _ _ _ _ (by omega)]

/-- `Inv` only mentions fields `setNeedle` keeps. -/
lemma setNeedle_inv (s : Mgr) (h : List Nat) (hI : Inv s) :
    Inv (setNeedle s h) := by
  obtain ⟨f1, f2, f3, f4, f5, f6, f7⟩ := setNeedle_fields s h
  exact ⟨f2 ▸ hI.trie1_lb, f2 ▸ hI.trie1_mod, f3 ▸ f2 ▸ hI.trie1_le,
    f4 ▸ f3 ▸ hI.char_le, f3 ▸ hI.char0_mod, f5 ▸ f4 ▸ hI.bufLen_ub⟩

/-- The dedup map stays coherent across `setNeedle` (pool bytes are
above 256 in every invariant state). -/
lemma setNeedle_segMapOk (s : Mgr) (h : List Nat) (hI : Inv s)
    (hM : segMapOk s) : segMapOk (setNeedle s h) := by
  obtain ⟨f1, f2, f3, f4, f5, f6, f7⟩ := setNeedle_fields s h
  intro p hp
  rw [f6] at hp
  obtain ⟨hb, hbytes⟩ := hM p hp
  refine ⟨by rw [f3, f4]; exact hb, ?_⟩
  intro i hi
  rw [f3, setNeedle_rd_hi s h _ (by
    have := hI.trie1_lb
    have := hI.trie1_le
    omega)]
  exact hbytes i hi

/-- A represented chain survives `setNeedle` (which touches only the
needle area). -/
lemma setNeedle_rep (s : Mgr) (h : List Nat) (hI : Inv s) {icell : Nat}
    {t : TCh} {fp : List Nat} (hr : Rep s icell t fp) :
    Rep (setNeedle s h) icell t fp := by
  obtain ⟨f1, f2, f3, f4, f5, f6, f7⟩ := setNeedle_fields s h
  refine rep_frame [] hr (by rw [f3, f4]) (by rw [f2]) ?_ ?_ (by simp)
  · intro j hj _ _
    exact setNeedle_rd_hi s h j hj
  · intro j hj
    rw [f3]
    refine setNeedle_rd_hi s h _ (by
      have := hI.trie1_lb
      have := hI.trie1_le
      omega)

/-! ### Operation specifications: `growBuf` -/

/-- Region bookkeeping of `growBuf`: the trie region and pool size are
preserved. -/
lemma growBuf_fields (s : Mgr) :
    (growBuf s).trie1 = s.trie1 ∧
    (growBuf s).char1 - (growBuf s).char0 = s.char1 - s.char0 ∧
    (growBuf s).needle = s.needle ∧ (growBuf s).segments = s.segments := by
  unfold growBuf resizeBuf
  dsimp only []
  split
  · exact ⟨rfl, rfl, rfl, rfl⟩
  · exact ⟨rfl, by dsimp only []; omega, rfl, rfl⟩

/-- After `growBuf` on an invariant state at least 24 bytes separate
`trie1` from `char0`: in the resize case `char0` is the 64 KiB round-up
of `trie1 + 24`, and in the no-op case the buffer-length bound of the
invariant forces the old `char0` to be that round-up already. -/
lemma growBuf_reserve (s : Mgr) (hI : Inv s) :
    s.trie1 + 24 ≤ (growBuf s).char0 := by
  obtain ⟨h1, h2, h3, h4, h5, h6⟩ := hI
  unfold growBuf resizeBuf
  dsimp only []
  split
  · rename_i he
    omega
  · dsimp only []
    omega

/-- `growBuf` preserves bytes below `trie1` (the trie region and needle
area). -/
lemma growBuf_rd_lo (s : Mgr) :
    ∀ j, j < s.trie1 → (growBuf s).buf.rd j = s.buf.rd j := by
  intro j hj
  unfold growBuf resizeBuf
  dsimp only []
  split
  · rfl
  · dsimp only [Buf.rd]
    rw [if_neg (by omega), if_pos hj]

/-- `growBuf` carries the pool bytes to the new pool position. -/
lemma growBuf_rd_pool (s : Mgr) :
    ∀ j, j < s.char1 - s.char0 →
      (growBuf s).buf.rd ((growBuf s).char0 + j) = s.buf.rd (s.char0 + j) := by
  intro j hj
  unfold growBuf resizeBuf
  dsimp only []
  split
  · rfl
  · dsimp only [Buf.rd]
    rw [if_pos (by omega)]
    congr 1
    omega

/-- `growBuf` preserves the layout invariant. -/
lemma growBuf_inv (s : Mgr) (hI : Inv s) : Inv (growBuf s) := by
  obtain ⟨h1, h2, h3, h4, h5, h6⟩ := hI
  unfold growBuf resizeBuf
  dsimp only []
  split
  · exact ⟨h1, h2, h3, h4, h5, h6⟩
  · exact ⟨h1, h2, by dsimp only []; omega, by dsimp only []; omega,
      by dsimp only []; omega, by dsimp only []; omega⟩

/-- `growBuf` preserves needle coherence. -/
lemma growBuf_ndlOk (s : Mgr) (hI : Inv s) (hN : NdlOk s) :
    NdlOk (growBuf s) := by
  obtain ⟨hf1, hf2, hf3, hf4⟩ := growBuf_fields s
  have hlo := growBuf_rd_lo s
  have h256 := hI.trie1_lb
  constructor
  · rw [hf3, hlo 255 (by omega)]
    exact hN.1
  · intro i hi
    rw [hf3] at hi ⊢
    rw [hlo i (by omega)]
    exact hN.2 i hi

/-- `growBuf` preserves dedup-map coherence. -/
lemma growBuf_segMapOk (s : Mgr) (hM : segMapOk s) :
    segMapOk (growBuf s) := by
  obtain ⟨hf1, hf2, hf3, hf4⟩ := growBuf_fields s
  intro p hp
  rw [hf4] at hp
  obtain ⟨hb, hbytes⟩ := hM p hp
  refine ⟨by omega, ?_⟩
  intro i hi
  rw [show (growBuf s).char0 + p.2 + i = (growBuf s).char0 + (p.2 + i) by omega,
    growBuf_rd_pool s (p.2 + i) (by omega),
    show s.char0 + (p.2 + i) = s.char0 + p.2 + i by omega]
  exact hbytes i hi

/-- A represented chain survives `growBuf`. -/
lemma growBuf_rep (s : Mgr) {icell : Nat} {t : TCh} {fp : List Nat}
    (hr : Rep s icell t fp) : Rep (growBuf s) icell t fp := by
  obtain ⟨hf1, hf2, hf3, hf4⟩ := growBuf_fields s
  refine rep_frame [] hr (by omega) (by omega) ?_ ?_ (by simp)
  · intro j _ hj _
    exact growBuf_rd_lo s j hj
  · exact growBuf_rd_pool s

/-! ### Operation specifications: `storeSegment` -/

/-- `getD` through a prefix. -/
lemma getD_take (l : List Nat) (m j d : Nat) (h : j < m) :
    (l.take m).getD j d = l.getD j d := by
  rcases Nat.lt_or_ge j l.length with hl | hl
  · rw [List.getD_eq_getElem _ _ (by simp; omega),
      List.getD_eq_getElem _ _ hl, List.getElem_take]
  · rw [List.getD_eq_default _ _ (by simp; omega),
      List.getD_eq_default _ _ hl]

/-- A successful dedup-map lookup returns a stored binding. -/
lemma segLookup_mem :
    ∀ (l : List (List Nat × Nat)) (key : List Nat) (v : Nat),
      segLookup l key = some v → (key, v) ∈ l := by
  intro l key v
  induction l with
  | nil => intro h; simp [segLookup] at h
  | cons p rest ih =>
    obtain ⟨k, w⟩ := p
    intro h
    rw [segLookup] at h
    split at h
    · rename_i hp
      cases h
      exact List.mem_cons.mpr (Or.inl (by rw [hp]))
    · exact List.mem_cons.mpr (Or.inr (ih h))

/-- The copy loop advances `char1` by the copied length. -/
lemma storeSegLoop_snd (n : Nat) :
    ∀ (f : Buf) (c : Nat), (storeSegLoop f c n).2 = c + n := by
  induction n with
  | zero => intro f c; rfl
  | succ m ih => intro f c; rw [storeSegLoop, ih]; omega

/-- The copy loop leaves bytes below `char1` unchanged. -/
lemma storeSegLoop_rd_lo (n : Nat) :
    ∀ (f : Buf) (c j : Nat), j < c →
      (storeSegLoop f c n).1.rd j = f.rd j := by
  induction n with
  | zero => intro f c j _; rfl
  | succ m ih =>
    intro f c j hj
    rw [storeSegLoop, ih _ _ _ (by omega), rd_wr8_ne _ _ (by omega)]

/-- The copy loop writes the first `n` source bytes in reverse order
(provided the source region lies below the target, as it always does:
needle bytes below 256, pool at `char1 ≥ 256`). -/
lemma storeSegLoop_rd_at (n : Nat) :
    ∀ (f : Buf) (c : Nat), n ≤ c → ∀ d, d < n →
      (storeSegLoop f c n).1.rd (c + d) = f.rd (n - 1 - d) := by
  induction n with
  | zero => intro f c _ d hd; omega
  | succ m ih =>
    intro f c hc d hd
    rw [storeSegLoop]
    cases d with
    | zero =>
      rw [show c + 0 = c by omega,
        storeSegLoop_rd_lo m _ _ _ (by omega), rd_wr8_eq,
        Nat.mod_eq_of_lt (Buf.rd_lt f m), show m + 1 - 1 - 0 = m by omega]
    | succ e =>
      rw [show c + (e + 1) = (c + 1) + e by omega,
        ih _ _ (by omega) e (by omega), rd_wr8_ne _ _ (by omega)]
      congr 1
      omega

/-- `storeSegment` specification: the returned descriptor packs the
length with a pool offset at which the reversed needle prefix is stored
(either found in the dedup map or freshly appended); the trie region,
needle area and existing pool bytes are untouched and all coherence
predicates are maintained. -/
lemma storeSegment_spec (s : Mgr) (len : Nat) (hI : Inv s) (hN : NdlOk s)
    (hM : segMapOk s) (hlen : len ≠ 0) (hle : len ≤ min s.needle.length 255)
    (hsp : s.char1 - s.char0 + 255 < 16777216) :
    ∃ off,
      (storeSegment s len).2 = 16777216 * len + off ∧
      off < 16777216 ∧
      off + len ≤ (storeSegment s len).1.char1 - s.char0 ∧
      readSeg (storeSegment s len).1 off len = readNdl s len ∧
      (storeSegment s len).1.trie1 = s.trie1 ∧
      (storeSegment s len).1.char0 = s.char0 ∧
      s.char1 ≤ (storeSegment s len).1.char1 ∧
      (storeSegment s len).1.char1 ≤ s.char1 + len ∧
      (storeSegment s len).1.bufLen = s.bufLen ∧
      (storeSegment s len).1.needle = s.needle ∧
      (∀ j, j < s.char1 → (storeSegment s len).1.buf.rd j = s.buf.rd j) ∧
      Inv (storeSegment s len).1 ∧ NdlOk (storeSegment s len).1 ∧
      segMapOk (storeSegment s len).1 := by
  have hndl : ∀ i, i < len → s.buf.rd (len - 1 - i) =
      s.needle.getD (len - 1 - i) 0 % 256 := by
    intro i hi
    exact hN.2 _ (by omega)
  have hkey : ∀ i, i < len → (s.needle.take len).getD (len - 1 - i) 0 =
      s.needle.getD (len - 1 - i) 0 := by
    intro i hi
    exact getD_take _ _ _ _ (by omega)
  have hkeylen : (s.needle.take len).length = len := by
    rw [List.length_take]
    omega
  have hch : s.char0 ≤ s.char1 := hI.char_le
  have h256 : 256 ≤ s.char1 := by
    have := hI.trie1_lb
    have := hI.trie1_le
    omega
  unfold storeSegment
  rw [if_neg hlen]
  dsimp only []
  cases hfind : segLookup s.segments (s.needle.take len) with
  | some ichar =>
    dsimp only []
    obtain ⟨hb, hbytes⟩ := hM _ (segLookup_mem _ _ _ hfind)
    dsimp only [] at hb hbytes
    rw [hkeylen] at hb hbytes
    refine ⟨ichar, rfl, by omega, by omega, ?_, rfl, rfl, le_refl _,
      by omega, rfl, rfl, fun j _ => rfl, hI, hN, hM⟩
    apply List.ext_getElem
    · rw [readSeg_length, readNdl_length]
    · intro i h1 h2
      rw [readSeg_length] at h1
      rw [← List.getD_eq_getElem _ 0, ← List.getD_eq_getElem _ 0,
        readSeg_getD s ichar len i h1, readNdl_getD s len i h1,
        hbytes i h1, hndl i h1, hkey i h1]
  | none =>
    dsimp only []
    have hsnd := storeSegLoop_snd len s.buf s.char1
    have hlo := storeSegLoop_rd_lo len s.buf s.char1
    have hat := storeSegLoop_rd_at len s.buf s.char1 (by omega)
    refine ⟨s.char1 - s.char0, rfl, by omega, ?_, ?_,
      rfl, rfl, ?_, ?_, rfl, rfl,
      ?_, ?_, ?_, ?_⟩
    · show s.char1 - s.char0 + len ≤ (storeSegLoop s.buf s.char1 len).2 - s.char0
      rw [hsnd]
      omega
    pick_goal 2
    · show s.char1 ≤ (storeSegLoop s.buf s.char1 len).2
      rw [hsnd]
      omega
    pick_goal 2
    · show (storeSegLoop s.buf s.char1 len).2 ≤ s.char1 + len
      rw [hsnd]
    · apply List.ext_getElem
      · rw [readSeg_length, readNdl_length]
      · intro i h1 h2
        rw [readSeg_length] at h1
        rw [← List.getD_eq_getElem _ 0, ← List.getD_eq_getElem _ 0,
          readSeg_getD _ _ len i h1, readNdl_getD s len i h1]
        dsimp only []
        rw [show s.char0 + (s.char1 - s.char0) + i = s.char1 + i by omega,
          hat i h1]
    · intro j hj
      exact hlo _ hj
    · exact ⟨hI.trie1_lb, hI.trie1_mod, hI.trie1_le,
        by dsimp only []; rw [hsnd]; omega, hI.char0_mod,
        by dsimp only []; rw [hsnd]; have := hI.bufLen_ub; omega⟩
    · refine ⟨?_, ?_⟩
      · dsimp only []
        rw [hlo _ (by omega)]
        exact hN.1
      · intro i hi
        dsimp only [] at hi ⊢
        rw [hlo _ (by omega)]
        exact hN.2 i hi
    · intro p hp
      dsimp only [] at hp ⊢
      rcases List.mem_cons.mp hp with he | hp2
      · subst he
        dsimp only []
        rw [hsnd, hkeylen]
        refine ⟨by omega, ?_⟩
        intro i hi
        rw [show s.char0 + (s.char1 - s.char0) + i = s.char1 + i by omega,
          hat i hi, hndl i hi, ← hkey i hi]
      · obtain ⟨hb, hbytes⟩ := hM p hp2
        rw [hsnd]
        refine ⟨by omega, ?_⟩
        intro i hi
        rw [hlo _ (by omega)]
        exact hbytes i hi

/-! ### Operation specifications: `newCell` -/

/-- `newCell` appends a cell at `trie1` (word index 1 mod 3 under the
alignment invariant), writes the three words, and touches nothing
else. -/
lemma newCell_spec (s : Mgr) (d r v : Nat) (hI : Inv s)
    (hd : d < 4294967296) (hr : r < 4294967296) (hv : v < 4294967296) :
    (newCell s d r v).2 = s.trie1 / 4 ∧
    (newCell s d r v).2 % 3 = 1 ∧
    256 ≤ 4 * (newCell s d r v).2 ∧
    4 * (newCell s d r v).2 = s.trie1 ∧
    (newCell s d r v).1.trie1 = s.trie1 + 12 ∧
    rd32 (newCell s d r v).1.buf (newCell s d r v).2 = d ∧
    rd32 (newCell s d r v).1.buf ((newCell s d r v).2 + 1) = r ∧
    rd32 (newCell s d r v).1.buf ((newCell s d r v).2 + 2) = v ∧
    (∀ j, j < s.trie1 → (newCell s d r v).1.buf.rd j = s.buf.rd j) ∧
    (newCell s d r v).1.char0 = s.char0 ∧
    (newCell s d r v).1.char1 = s.char1 ∧
    (newCell s d r v).1.bufLen = s.bufLen ∧
    (newCell s d r v).1.needle = s.needle ∧
    (newCell s d r v).1.segments = s.segments := by
  have h1 := hI.trie1_lb
  have h2 := hI.trie1_mod
  unfold newCell
  dsimp only []
  refine ⟨rfl, by omega, by omega, by omega, rfl, ?_, ?_, ?_, ?_,
    rfl, rfl, rfl, rfl, rfl⟩
  · rw [rd32_wr32_ne _ _ (by omega), rd32_wr32_ne _ _ (by omega),
      rd32_wr32_eq _ _ _ hd]
  · rw [rd32_wr32_ne _ _ (by omega), rd32_wr32_eq _ _ _ hr]
  · rw [rd32_wr32_eq _ _ _ hv]
  · intro j hj
    rw [rd_wr32_out _ _ (by omega), rd_wr32_out _ _ (by omega),
      rd_wr32_out _ _ (by omega)]

end HNBigTrie
